import Mathlib

/-!
Spreadsheet core: cells, sheet, cycle check, memoised evaluation and grid dumps.

A shallow embedding of `sheet.cpp`, `cell.cpp` and `formula.cpp`.

* The sheet's `unordered_map<Position, unique_ptr<Cell>>` is an association
  list with at most one entry per key.
* C++ exceptions and null-pointer dereferences are explicit `Failure` results.
* Recursive member functions (`CheckCircularDependencies`, `SetCell` through
  `Cell::Set`, `GetValue` through the formula engine) take a recursion budget;
  `none` means the budget ran out before the call returned.
* The formula engine (`FormulaAST`), `Position::IsValid`, `Position::NONE`, the
  position order and the stream rendering of a double are not part of the three
  source files; they are parameters or are modelled from the specification and
  marked as such.
* Doubles are represented by integers: the development never relies on
  rounding, only on which value is stored and returned.
-/

namespace Spreadsheet

/-! ## Positions and values -/

/-- Zero-based cell address (`struct Position { int row; int col; }`). -/
structure Position where
  row : Int
  col : Int
  deriving DecidableEq, Repr

/-- Modelled from the spec: the order on positions declared in the absent
`common.h`; the specification fixes it as the row-major total order. -/
def Position.lt (a b : Position) : Prop :=
  a.row < b.row ∨ (a.row = b.row ∧ a.col < b.col)

instance Position.decLt (a b : Position) : Decidable (Position.lt a b) := by
  unfold Position.lt; exact inferInstance

/-- Row-major non-strict order, the relation the list sort arranges by. -/
def Position.le (a b : Position) : Prop :=
  a.row < b.row ∨ (a.row = b.row ∧ a.col ≤ b.col)

instance Position.decLe (a b : Position) : Decidable (Position.le a b) := by
  unfold Position.le; exact inferInstance

/-- Computation error categories (`FormulaError::Category`). -/
inductive FormulaError where
  | Ref
  | Value
  | Div0
  deriving DecidableEq, Repr

/-- Display string of an error, `FormulaError::ToString` (formula.cpp 67-82). -/
def FormulaError.ToString : FormulaError → String
  | .Ref => "#REF!"
  | .Value => "#VALUE!"
  | .Div0 => "#DIV/0!"

/-- Cell value, `std::variant<std::string, double, FormulaError>`. -/
inductive Value where
  | Text (s : String)
  | Number (d : Int)
  | Error (e : FormulaError)
  deriving DecidableEq, Repr

/-- Ways a call can end other than by returning: the three exception classes thrown
in the sources, and the dereference of a null pointer. -/
inductive Failure where
  | InvalidPosition
  | FormulaSyntaxError
  | CircularDependency
  | NullDereference
  deriving DecidableEq, Repr

/-! ## Formula engine and wrapper -/

/-- Modelled from the spec: one run of the absent engine's `Execute`, as the
exchange the specification describes ("the engine resolves each reference by
asking the Sheet for that cell's Value"). `ret` ends the run with a number or a
raised computation error; `ask p k` fetches `GetCell(p)`, reads its value when
the cell is present, and continues with `k`. -/
inductive Exec where
  | ret (r : Except FormulaError Int)
  | ask (p : Position) (k : Option Value → Exec)

/-- Modelled from the spec: a parsed expression of the absent `FormulaAST`
class, reduced to the three queries `formula.cpp` makes of it. -/
structure FormulaAST where
  GetCells : List Position
  PrintFormula : String
  Execute : Exec

/-- External collaborators the three files are compiled against:
`Position::IsValid` and `ParseFormulaAST` (`none` when it throws). -/
structure Env where
  IsValid : Position → Bool
  ParseFormulaAST : String → Option FormulaAST

/-- Removal of consecutive equal elements, `std::forward_list::unique()`. -/
def unique : List Position → List Position
  | [] => []
  | [a] => [a]
  | a :: b :: rest => if a = b then unique (b :: rest) else a :: unique (b :: rest)

/-- The list sort of `std::forward_list::sort()` under the position order. -/
def sort (l : List Position) : List Position :=
  l.insertionSort Position.le

/-- The `Formula` wrapper object: the parsed tree and the stored reference list. -/
structure Formula where
  ast_ : FormulaAST
  cells_ : List Position

/-- Constructor `Formula::Formula` (formula.cpp 17-22):
`cells = ast_.GetCells(); cells.unique(); cells.sort(); cells_ = cells`. -/
def Formula.new (ast : FormulaAST) : Formula :=
  { ast_ := ast, cells_ := sort (unique ast.GetCells) }

/-- Member `Formula::GetReferencedCells` (formula.cpp 38-40). -/
def Formula.GetReferencedCells (f : Formula) : List Position := f.cells_

/-- Member `Formula::GetExpression` (formula.cpp 33-37). -/
def Formula.GetExpression (f : Formula) : String := f.ast_.PrintFormula

/-- Function `ParseFormula` (formula.cpp 47-54): any exception of the constructor
becomes a `FormulaException`, here `none`. -/
def ParseFormula (E : Env) (expr : String) : Option Formula :=
  match E.ParseFormulaAST expr with
  | none => none
  | some ast => some (Formula.new ast)

/-! ## Cells -/

/-- The three content classes `EmptyImpl`, `TextImpl`, `FormulaImpl`. -/
inductive Impl where
  | EmptyImpl
  | TextImpl (data_ : String)
  | FormulaImpl (data_ : Formula)

/-- Virtual `Impl::GetString`. -/
def Impl.GetString : Impl → String
  | .EmptyImpl => ""
  | .TextImpl d => d
  | .FormulaImpl f => "=" ++ f.GetExpression

/-- Virtual `Impl::GetReferencedCells` (default: empty; formula: the wrapper's list). -/
def Impl.GetReferencedCells : Impl → List Position
  | .EmptyImpl => []
  | .TextImpl _ => []
  | .FormulaImpl f => f.GetReferencedCells

/-- The memoisation slot `Cell::CellCache`. -/
structure CellCache where
  val_ : Value
  modification_flag_ : Bool

/-- Conversion `CellCache::operator bool` (cell.cpp 149-151). -/
def CellCache.toBool (c : CellCache) : Bool := !c.modification_flag_

/-- Conversion `CellCache::operator Value` (cell.cpp 153-155). -/
def CellCache.toValue (c : CellCache) : Value := c.val_

/-- A cell: the owned content pointer (`none` is the null pointer) and the cache. -/
structure Cell where
  impl_ : Option Impl
  cache_ : CellCache

/-- Constructor `Cell::Cell` (cell.cpp 77-78): empty content. Modelled from the
spec: the initial cache is declared in the absent `cell.h`; it is taken as the
empty memoisation slot. -/
def Cell.new : Cell :=
  { impl_ := some Impl.EmptyImpl, cache_ := { val_ := Value.Text "", modification_flag_ := true } }

/-- Member `Cell::IsModified` (cell.cpp 82-84): `return cache_;`. -/
def Cell.IsModified (c : Cell) : Bool := c.cache_.toBool

/-- Member `Cell::SetCache` (cell.cpp 86-89). -/
def Cell.SetCache (c : Cell) (val : Value) : Cell :=
  { c with cache_ := { val_ := val, modification_flag_ := false } }

/-- Member `Cell::Clear` (cell.cpp 115-118): the content pointer is reset to null. -/
def Cell.Clear (c : Cell) : Cell :=
  { impl_ := none, cache_ := { c.cache_ with modification_flag_ := true } }

/-- Member `Cell::GetText` (cell.cpp 143-148). -/
def Cell.GetText (c : Cell) : String :=
  match c.impl_ with
  | some i => i.GetString
  | none => ""

/-- Member `Cell::GetReferencedCells` (cell.cpp 156-158): `impl_->GetReferencedCells()`
with no null test. -/
def Cell.GetReferencedCells (c : Cell) : Except Failure (List Position) :=
  match c.impl_ with
  | some i => .ok i.GetReferencedCells
  | none => .error Failure.NullDereference

/-- Functor `ValueVisitor` (cell.cpp 120-130): a leading apostrophe is dropped from text.
On the empty text `str.front()` reads the terminating NUL, which is no apostrophe, so
the empty text is returned as it is. -/
def ValueVisitor : Value → Value
  | .Text str =>
    match str.data with
    | c :: rest => if c = Char.ofNat 39 then Value.Text (String.mk rest) else Value.Text str
    | [] => Value.Text str
  | .Number d => Value.Number d
  | .Error f => Value.Error f

/-! ## Sheet storage -/

/-- The sheet: its map `data_`. -/
structure Sheet where
  data_ : List (Position × Cell)

/-- The sheet made by `CreateSheet`. -/
def Sheet.empty : Sheet := { data_ := [] }

/-- First entry of an association list stored under `pos`. -/
def lookup (pos : Position) : List (Position × Cell) → Option Cell
  | [] => none
  | e :: rest => if e.1 = pos then some e.2 else lookup pos rest

/-- Map lookup `data_.find(pos)`. -/
def Sheet.find (s : Sheet) (pos : Position) : Option Cell :=
  lookup pos s.data_

/-- Map removal `data_.erase(pos)`. -/
def Sheet.erase (s : Sheet) (pos : Position) : Sheet :=
  { data_ := s.data_.filter (fun e => decide (e.1 ≠ pos)) }

/-- Map assignment `data_[pos] = cell` (insert or overwrite). -/
def Sheet.assign (s : Sheet) (pos : Position) (c : Cell) : Sheet :=
  { data_ := (pos, c) :: (s.erase pos).data_ }

/-- Member `Sheet::GetCell` (sheet.cpp 26-45). -/
def Sheet.GetCell (E : Env) (s : Sheet) (pos : Position) : Except Failure (Option Cell) :=
  if E.IsValid pos then .ok (s.find pos) else .error Failure.InvalidPosition

/-- Member `Sheet::ClearCell` (sheet.cpp 47-54). -/
def Sheet.ClearCell (E : Env) (s : Sheet) (pos : Position) : Except Failure Unit × Sheet :=
  if E.IsValid pos then (.ok (), s.erase pos) else (.error Failure.InvalidPosition, s)

/-! ## Cycle check -/

/-- The `for` loop of `CheckCircularDependencies` (sheet.cpp 153-158) over the
remaining references, with `res` the accumulated flag and `rec` the recursive call
on the cell at a position. `res || ...` does not make the call once `res` is set. -/
def checkLoop (rec : Position → Option (Except Failure Bool)) (head : Position) :
    List Position → Bool → Option (Except Failure Bool)
  | [], res => some (.ok res)
  | next_cell :: rest, res =>
    if next_cell = head then some (.ok true)
    else if res then checkLoop rec head rest res
    else
      match rec next_cell with
      | none => none
      | some (.error e) => some (.error e)
      | some (.ok b) => checkLoop rec head rest b

/-- Member `Sheet::CheckCircularDependencies` (sheet.cpp 148-160). -/
def Sheet.CheckCircularDependencies (E : Env) (s : Sheet) :
    Nat → Option Cell → Position → Option (Except Failure Bool)
  | 0, _, _ => none
  | _ + 1, none, _ => some (.ok false)
  | fuel + 1, some cell, head =>
    match cell.GetReferencedCells with
    | .error e => some (.error e)
    | .ok refs =>
      checkLoop
        (fun next_cell =>
          match s.GetCell E next_cell with
          | .error e => some (.error e)
          | .ok c => Sheet.CheckCircularDependencies E s fuel c head)
        head refs false

/-! ## Setting a cell -/

/-- The materialisation loop of `Cell::Set` (cell.cpp 98-103): every referenced
position without a cell is set to the empty text through the sheet. -/
def materialize (E : Env) (SetCell : Sheet → Position → String → Option (Except Failure Unit × Sheet)) :
    List Position → Sheet → Option (Except Failure Unit × Sheet)
  | [], s => some (.ok (), s)
  | ref_cell :: rest, s =>
    match s.GetCell E ref_cell with
    | .error e => some (.error e, s)
    | .ok (some _) => materialize E SetCell rest s
    | .ok none =>
      match SetCell s ref_cell "" with
      | none => none
      | some (.error e, s1) => some (.error e, s1)
      | some (.ok (), s1) => materialize E SetCell rest s1

/-- Member `Cell::Set` (cell.cpp 91-113) on cell `c` owned by sheet `s`; returns the
outcome, the cell and the sheet as they are when the call ends. -/
def Cell.Set (E : Env) (SetCell : Sheet → Position → String → Option (Except Failure Unit × Sheet))
    (c : Cell) (s : Sheet) (text : String) : Option (Except Failure Unit × Cell × Sheet) :=
  match text.data with
  | [] =>
    some (.ok (), { impl_ := some Impl.EmptyImpl, cache_ := { c.cache_ with modification_flag_ := true } }, s)
  | ch :: rest =>
    if ch = '=' ∧ rest ≠ [] then
      match ParseFormula E (String.mk rest) with
      | none => some (.error Failure.FormulaSyntaxError, c, s)
      | some f =>
        let c1 : Cell := { c with impl_ := some (Impl.FormulaImpl f) }
        match materialize E SetCell f.GetReferencedCells s with
        | none => none
        | some (.error _, s1) => some (.error Failure.FormulaSyntaxError, c1, s1)
        | some (.ok (), s1) =>
          some (.ok (), { c1 with cache_ := { c1.cache_ with modification_flag_ := true } }, s1)
    else
      some (.ok (), { impl_ := some (Impl.TextImpl text),
                      cache_ := { c.cache_ with modification_flag_ := true } }, s)

/-- Member `Sheet::SetCell` (sheet.cpp 14-24); returns the outcome and the sheet as
it is when the call ends. -/
def Sheet.SetCell (E : Env) : Nat → Sheet → Position → String → Option (Except Failure Unit × Sheet)
  | 0, _, _, _ => none
  | fuel + 1, s, pos, text =>
    if E.IsValid pos then
      match Cell.Set E (Sheet.SetCell E fuel) Cell.new s text with
      | none => none
      | some (.error e, _, s1) => some (.error e, s1)
      | some (.ok (), temp_cell, s1) =>
        match s1.CheckCircularDependencies E fuel (some temp_cell) pos with
        | none => none
        | some (.error e) => some (.error e, s1)
        | some (.ok true) => some (.error Failure.CircularDependency, s1)
        | some (.ok false) => some (.ok (), s1.assign pos temp_cell)
    else some (.error Failure.InvalidPosition, s)

/-! ## Reading a value -/

/-- The `any_of` of `Cell::GetValue` (cell.cpp 134-135): for each dependency in order,
`sheet_.GetCell(pos)` is dereferenced with no null test and asked `IsModified()`. -/
def anyModified (E : Env) (s : Sheet) : List Position → Except Failure Bool
  | [] => .ok false
  | pos :: rest =>
    match s.GetCell E pos with
    | .error e => .error e
    | .ok none => .error Failure.NullDereference
    | .ok (some cell_ptr) => if cell_ptr.IsModified then .ok true else anyModified E s rest

/-- Modelled from the spec: the absent engine's `Execute` run against the sheet. A
request for a present cell calls that cell's `GetValue` (which may update caches);
an absent cell is reported to the engine as such; `GetCell` throws on an invalid
position. -/
def runExec (E : Env) (GetValue : Sheet → Position → Option (Except Failure Value × Sheet)) :
    Exec → Sheet → Option (Except Failure (Except FormulaError Int) × Sheet)
  | .ret r, s => some (.ok r, s)
  | .ask p k, s =>
    match s.GetCell E p with
    | .error e => some (.error e, s)
    | .ok none => runExec E GetValue (k none) s
    | .ok (some _) =>
      match GetValue s p with
      | none => none
      | some (.error e, s1) => some (.error e, s1)
      | some (.ok v, s1) => runExec E GetValue (k (some v)) s1

/-- Member `Formula::Evaluate` (formula.cpp 24-32) followed by `FormulaVisitor`
(cell.cpp 50-57): the number, or the caught `FormulaError`, as a cell value. -/
def Formula.Evaluate (r : Except FormulaError Int) : Value :=
  match r with
  | .ok res => Value.Number res
  | .error f => Value.Error f

/-- Virtual `Impl::GetValue(sheet)` (cell.cpp 24-26, 37-39, 62-64). -/
def Impl.GetValue (E : Env) (GetValue : Sheet → Position → Option (Except Failure Value × Sheet)) :
    Impl → Sheet → Option (Except Failure Value × Sheet)
  | .EmptyImpl, s => some (.ok (Value.Text ""), s)
  | .TextImpl d, s => some (.ok (Value.Text d), s)
  | .FormulaImpl f, s =>
    match runExec E GetValue f.ast_.Execute s with
    | none => none
    | some (.error e, s1) => some (.error e, s1)
    | some (.ok r, s1) => some (.ok (Formula.Evaluate r), s1)

/-- Update of the cache of the cell object stored at `pos` (`SetCache` on `this`). -/
def Sheet.SetCache (s : Sheet) (pos : Position) (val : Value) : Sheet :=
  { data_ := s.data_.map (fun e => if e.1 = pos then (e.1, e.2.SetCache val) else e) }

/-- Member `Cell::GetValue` (cell.cpp 132-141) called on the cell object stored at
`pos`, i.e. `GetCell(pos)->GetValue()`; returns the outcome and the sheet with the
caches as they are when the call ends. -/
def GetValue (E : Env) : Nat → Sheet → Position → Option (Except Failure Value × Sheet)
  | 0, _, _ => none
  | fuel + 1, s, pos =>
    match s.find pos with
    | none => some (.error Failure.NullDereference, s)
    | some cell =>
      match cell.GetReferencedCells with
      | .error e => some (.error e, s)
      | .ok dependency =>
        match (if !cell.cache_.toBool then .ok true else anyModified E s dependency) with
        | .error e => some (.error e, s)
        | .ok false => some (.ok cell.cache_.toValue, s)
        | .ok true =>
          match cell.impl_ with
          | none => some (.ok (Value.Text ""), s.SetCache pos (Value.Text ""))
          | some impl =>
            match impl.GetValue E (GetValue E fuel) s with
            | none => none
            | some (.error e, s1) => some (.error e, s1)
            | some (.ok v, s1) => some (.ok (ValueVisitor v), s1.SetCache pos (ValueVisitor v))

/-! ## A concrete engine for worked examples -/

/-- Decimal digits of a text as a number; `none` when a character is not a digit. -/
def digitsToNat : List Char → Nat → Option Nat
  | [], acc => some acc
  | c :: rest, acc =>
    if 48 ≤ c.toNat ∧ c.toNat ≤ 57 then digitsToNat rest (acc * 10 + (c.toNat - 48)) else none

/-- Modelled from the spec: how the engine reads a looked-up value as a number (the
arithmetic example of the specification needs the text "5" to count as 5): an
absent cell and the empty text are 0, a text of digits is its number, any other
text raises `Value`, an error value is raised again. -/
def asNumber (v : Option Value) : Except FormulaError Int :=
  match v with
  | none => .ok 0
  | some (.Number d) => .ok d
  | some (.Error e) => .error e
  | some (.Text t) =>
    match digitsToNat t.data 0 with
    | some n => .ok (Int.ofNat n)
    | none => .error FormulaError.Value

/-- Cell A1. -/
def A1 : Position := ⟨0, 0⟩
/-- Cell B1. -/
def B1 : Position := ⟨0, 1⟩
/-- Cell C1. -/
def C1 : Position := ⟨0, 2⟩

/-- Expression `p`: a single reference. -/
def astRef (name : String) (p : Position) : FormulaAST :=
  { GetCells := [p], PrintFormula := name,
    Execute := .ask p (fun v => .ret (asNumber v)) }

/-- Expression `p+n`: a reference plus a literal. -/
def astRefPlus (name : String) (p : Position) (n : Int) : FormulaAST :=
  { GetCells := [p], PrintFormula := name,
    Execute := .ask p (fun v => .ret (match asNumber v with | .ok a => .ok (a + n) | .error e => .error e)) }

/-- Expression `p+q`: the left operand is evaluated first. -/
def astSum (name : String) (p q : Position) : FormulaAST :=
  { GetCells := [p, q], PrintFormula := name,
    Execute := .ask p (fun v => match asNumber v with
      | .error e => .ret (.error e)
      | .ok a => .ask q (fun w => .ret (match asNumber w with | .ok b => .ok (a + b) | .error e => .error e))) }

/-- A small engine: positions inside a 16384 x 16384 grid are valid, and a handful
of formula texts parse. -/
def demoEnv : Env :=
  { IsValid := fun p => decide (0 ≤ p.row ∧ p.row < 16384 ∧ 0 ≤ p.col ∧ p.col < 16384),
    ParseFormulaAST := fun src =>
      if src = "A1" then some (astRef "A1" A1)
      else if src = "B1" then some (astRef "B1" B1)
      else if src = "A1+1" then some (astRefPlus "A1+1" A1 1)
      else if src = "B1+A1" then some (astSum "B1+A1" B1 A1)
      else none }

/-! ## Closed forms used in the proofs -/

/-- The cell `SetCell(pos, "")` stores: empty content, empty memoisation slot. -/
def Cell.emptyCell : Cell :=
  { impl_ := some Impl.EmptyImpl, cache_ := { val_ := Value.Text "", modification_flag_ := true } }

/-- What the materialisation loop computes once the nested `SetCell` calls return. -/
def matPure (E : Env) : List Position → Sheet → Except Failure Unit × Sheet
  | [], s => (.ok (), s)
  | r :: rest, s =>
    if E.IsValid r then
      match s.find r with
      | some _ => matPure E rest s
      | none => matPure E rest (s.assign r Cell.emptyCell)
    else (.error Failure.InvalidPosition, s)

/-- What `Cell::Set` computes on a fresh cell once the nested `SetCell` calls return. -/
def setPure (E : Env) (s : Sheet) (text : String) : Except Failure Unit × Cell × Sheet :=
  match text.data with
  | [] => (.ok (), Cell.emptyCell, s)
  | ch :: rest =>
    if ch = '=' ∧ rest ≠ [] then
      match ParseFormula E (String.mk rest) with
      | none => (.error Failure.FormulaSyntaxError, Cell.new, s)
      | some f =>
        match matPure E f.GetReferencedCells s with
        | (.error _, s1) =>
          (.error Failure.FormulaSyntaxError, { Cell.new with impl_ := some (Impl.FormulaImpl f) }, s1)
        | (.ok (), s1) =>
          (.ok (), { impl_ := some (Impl.FormulaImpl f),
                     cache_ := { val_ := Value.Text "", modification_flag_ := true } }, s1)
    else
      (.ok (), { impl_ := some (Impl.TextImpl text),
                 cache_ := { val_ := Value.Text "", modification_flag_ := true } }, s)

/-- Reference list of a possibly null cell pointer, empty when nothing can be read. -/
def refsOf : Option Cell → List Position
  | some { impl_ := some i, .. } => i.GetReferencedCells
  | _ => []

/-- Edge of the reference graph: the cell stored at `x` references `y`. -/
def Edge (s : Sheet) (x y : Position) : Prop :=
  y ∈ refsOf (s.find x)

/-- No position reaches itself along one or more edges. -/
def Acyclic (s : Sheet) : Prop :=
  ∀ x, ¬ Relation.TransGen (Edge s) x x

/-- Position `head` is one of `refs` or is reached from one of them along edges. -/
def ReachableFrom (s : Sheet) (refs : List Position) (head : Position) : Prop :=
  ∃ r ∈ refs, Relation.ReflTransGen (Edge s) r head

/-- Every stored cell sits at a valid position, has its content object, and
references valid positions only. -/
def WellFormed (E : Env) (s : Sheet) : Prop :=
  ∀ p c, s.find p = some c →
    E.IsValid p = true ∧ ∃ i, c.impl_ = some i ∧ ∀ r ∈ i.GetReferencedCells, E.IsValid r = true

/-- Sheet states produced from the empty sheet by `SetCell` and `ClearCell` calls,
whatever their outcome. -/
inductive Reachable (E : Env) : Sheet → Prop
  | empty : Reachable E Sheet.empty
  | setCell {s s1 : Sheet} {fuel : Nat} {pos : Position} {text : String} {r : Except Failure Unit} :
      Reachable E s → Sheet.SetCell E fuel s pos text = some (r, s1) → Reachable E s1
  | clearCell {s : Sheet} (pos : Position) :
      Reachable E s → Reachable E (s.ClearCell E pos).2

/-- The last step of `SetCell`: what the call returns and leaves behind, given the
outcome of the cycle check on the candidate. -/
def commit (chk : Except Failure Bool) (s1 : Sheet) (pos : Position) (cand : Cell) :
    Except Failure Unit × Sheet :=
  match chk with
  | .error e => (.error e, s1)
  | .ok true => (.error Failure.CircularDependency, s1)
  | .ok false => (.ok (), s1.assign pos cand)

/-! ## Call sequences and sample data -/

/-- One call of the public interface. -/
inductive Call where
  | SetCell (pos : Position) (text : String)
  | ClearCell (pos : Position)
  | GetValue (pos : Position)

/-- What a call hands back to its caller. -/
inductive Reply where
  | returned
  | threw (e : Failure)
  | value (v : Value)
  deriving DecidableEq, Repr

/-- Runs the calls in order on a sheet and collects what each hands back. -/
def runCalls (E : Env) (fuel : Nat) : List Call → Sheet → Option (List Reply × Sheet)
  | [], s => some ([], s)
  | .SetCell pos text :: rest, s =>
    match Sheet.SetCell E fuel s pos text with
    | none => none
    | some (.ok (), s1) => (runCalls E fuel rest s1).map (fun r => (Reply.returned :: r.1, r.2))
    | some (.error e, s1) => (runCalls E fuel rest s1).map (fun r => (Reply.threw e :: r.1, r.2))
  | .ClearCell pos :: rest, s =>
    match s.ClearCell E pos with
    | (.ok (), s1) => (runCalls E fuel rest s1).map (fun r => (Reply.returned :: r.1, r.2))
    | (.error e, s1) => (runCalls E fuel rest s1).map (fun r => (Reply.threw e :: r.1, r.2))
  | .GetValue pos :: rest, s =>
    match GetValue E fuel s pos with
    | none => none
    | some (.ok v, s1) => (runCalls E fuel rest s1).map (fun r => (Reply.value v :: r.1, r.2))
    | some (.error e, s1) => (runCalls E fuel rest s1).map (fun r => (Reply.threw e :: r.1, r.2))

/-- The engine run of `freshValue`: every present referenced cell is evaluated
afresh through `rec`. -/
def freshExec (E : Env) (s : Sheet) (rec : Position → Option (Except Failure Value)) :
    Exec → Option (Except Failure (Except FormulaError Int))
  | .ret r => some (.ok r)
  | .ask p k =>
    match s.GetCell E p with
    | .error e => some (.error e)
    | .ok none => freshExec E s rec (k none)
    | .ok (some _) =>
      match rec p with
      | none => none
      | some (.error e) => some (.error e)
      | some (.ok v) => freshExec E s rec (k (some v))

/-- The value the specification measures `GetValue` against: the current content of
the cell at `pos`, and of every cell it transitively references, evaluated with no
cache at all. -/
def freshValue (E : Env) : Nat → Sheet → Position → Option (Except Failure Value)
  | 0, _, _ => none
  | fuel + 1, s, pos =>
    match s.find pos with
    | none => some (.error Failure.NullDereference)
    | some cell =>
      match cell.impl_ with
      | none => some (.ok (Value.Text ""))
      | some Impl.EmptyImpl => some (.ok (ValueVisitor (Value.Text "")))
      | some (Impl.TextImpl d) => some (.ok (ValueVisitor (Value.Text d)))
      | some (Impl.FormulaImpl f) =>
        match freshExec E s (freshValue E fuel s) f.ast_.Execute with
        | none => none
        | some (.error e) => some (.error e)
        | some (.ok r) => some (.ok (ValueVisitor (Formula.Evaluate r)))

/-- The sheet after `SetCell(A1, "=B1")` on the empty sheet: the formula at A1 and
the empty cell materialised at B1. -/
def sheetA1B1 : Sheet :=
  { data_ := [(A1, { impl_ := some (Impl.FormulaImpl (Formula.new (astRef "B1" B1))),
                     cache_ := { val_ := Value.Text "", modification_flag_ := true } }),
              (B1, Cell.emptyCell)] }

/-- The engine lists valid positions only: every position in the reference list of
a parsed expression passes the validity predicate. `ParseFormulaAST` is not among
the sources; this is the condition on it under which a parsed formula never makes
`GetCell` throw inside `Cell::Set`. -/
def ListsValidReferences (E : Env) : Prop :=
  ∀ src ast, E.ParseFormulaAST src = some ast → ∀ p ∈ ast.GetCells, E.IsValid p = true

/-! ## Printable area and grid dumps -/

/-- Result of `GetPrintableSize` (`struct Size { int rows; int cols; }`). -/
structure Size where
  rows : Int
  cols : Int
  deriving DecidableEq, Repr

/-- Body of the `for` loop of `GetCorners` (sheet.cpp 133-144): `right` grows to the
key's column and row when they are larger. -/
def cornerStep (right : Position) (e : Position × Cell) : Position :=
  { row := if right.row < e.1.row then e.1.row else right.row,
    col := if right.col < e.1.col then e.1.col else right.col }

/-- Member `Sheet::GetCorners` (sheet.cpp 124-146). The constant `Position::NONE` is
declared in the absent `common.h` and is a parameter. -/
def Sheet.GetCorners (NONE : Position) (s : Sheet) : Position × Position :=
  match s.data_ with
  | [] => (⟨0, 0⟩, ⟨0, 0⟩)
  | [e] => (⟨0, 0⟩, e.1)
  | _ => (⟨0, 0⟩, s.data_.foldl cornerStep NONE)

/-- Member `Sheet::GetPrintableSize` (sheet.cpp 56-62). -/
def Sheet.GetPrintableSize (NONE : Position) (s : Sheet) : Size :=
  if s.data_.isEmpty then ⟨0, 0⟩
  else
    ⟨(s.GetCorners NONE).2.row - (s.GetCorners NONE).1.row + 1,
     (s.GetCorners NONE).2.col - (s.GetCorners NONE).1.col + 1⟩

/-- Functor `ValueToStringVisitor` (sheet.cpp 64-78). The stream rendering of a
double comes from the standard library and is the parameter `fmt`. -/
def ValueToStringVisitor (fmt : Int → String) : Value → String
  | .Text str => str
  | .Number d => fmt d
  | .Error f => f.ToString

/-- The integers `lo, lo+1, ...`, `n` of them. -/
def countUp (lo : Int) : Nat → List Int
  | 0 => []
  | n + 1 => lo :: countUp (lo + 1) n

/-- Values taken by `i` in `for (int i = lo; i <= hi; ++i)`. -/
def forRange (lo hi : Int) : List Int :=
  countUp lo (hi + 1 - lo).toNat

/-- What `PrintTexts` writes for one position (sheet.cpp 108-111): nothing for an
absent cell, the text of a present one. -/
def textOut (E : Env) (s : Sheet) (p : Position) : Option (Except Failure String × Sheet) :=
  match s.GetCell E p with
  | .error e => some (.error e, s)
  | .ok none => some (.ok "", s)
  | .ok (some current_cell) => some (.ok current_cell.GetText, s)

/-- What `PrintValues` writes for one position (sheet.cpp 88-91): nothing for an
absent cell, the rendered `GetValue()` of a present one. -/
def valueOut (E : Env) (fmt : Int → String) (fuel : Nat) (s : Sheet) (p : Position) :
    Option (Except Failure String × Sheet) :=
  match s.GetCell E p with
  | .error e => some (.error e, s)
  | .ok none => some (.ok "", s)
  | .ok (some _) =>
    match GetValue E fuel s p with
    | none => none
    | some (.error e, s1) => some (.error e, s1)
    | some (.ok v, s1) => some (.ok (ValueToStringVisitor fmt v), s1)

/-- The inner `for` loop over the columns `j` of row `i` (sheet.cpp 87-95 and
107-115): the cell's output, then a tab unless `j` is the last column. -/
def printRow (cellOut : Sheet → Position → Option (Except Failure String × Sheet))
    (i : Int) (right_col : Int) :
    List Int → Sheet → String → Option (Except Failure Unit × String × Sheet)
  | [], s, output => some (.ok (), output, s)
  | j :: rest, s, output =>
    match cellOut s ⟨i, j⟩ with
    | none => none
    | some (.error e, s1) => some (.error e, output, s1)
    | some (.ok str, s1) =>
      printRow cellOut i right_col rest s1
        ((output ++ str) ++ (if j < right_col then "\t" else ""))

/-- The outer `for` loop over the rows `i` (sheet.cpp 86-97 and 106-117): the row,
then a newline. -/
def printRows (cellOut : Sheet → Position → Option (Except Failure String × Sheet))
    (left_corner right_corner : Position) :
    List Int → Sheet → String → Option (Except Failure Unit × String × Sheet)
  | [], s, output => some (.ok (), output, s)
  | i :: rest, s, output =>
    match printRow cellOut i right_corner.col
        (forRange left_corner.col right_corner.col) s output with
    | none => none
    | some (.error e, out1, s1) => some (.error e, out1, s1)
    | some (.ok (), out1, s1) =>
      printRows cellOut left_corner right_corner rest s1 (out1 ++ "\n")

/-- Member `Sheet::PrintValues` (sheet.cpp 80-98); returns the outcome, the text
written to `output` and the sheet with its caches. -/
def Sheet.PrintValues (E : Env) (fmt : Int → String) (NONE : Position) (fuel : Nat) (s : Sheet) :
    Option (Except Failure Unit × String × Sheet) :=
  if s.data_.isEmpty then some (.ok (), "", s)
  else
    printRows (valueOut E fmt fuel) (s.GetCorners NONE).1 (s.GetCorners NONE).2
      (forRange (s.GetCorners NONE).1.row (s.GetCorners NONE).2.row) s ""

/-- Member `Sheet::PrintTexts` (sheet.cpp 100-118); returns the outcome, the text
written to `output` and the sheet. -/
def Sheet.PrintTexts (E : Env) (NONE : Position) (s : Sheet) :
    Option (Except Failure Unit × String × Sheet) :=
  if s.data_.isEmpty then some (.ok (), "", s)
  else
    printRows (textOut E) (s.GetCorners NONE).1 (s.GetCorners NONE).2
      (forRange (s.GetCorners NONE).1.row (s.GetCorners NONE).2.row) s ""

/-- The renderings of one row joined by single tab characters. -/
def joinTabs : List String → String
  | [] => ""
  | [x] => x
  | x :: y :: rest => (x ++ "\t") ++ joinTabs (y :: rest)

/-- The dump the specification describes: each row's renderings joined by tabs and
followed by one newline, rows in order. -/
def gridDump : List (List String) → String
  | [] => ""
  | row :: rest => (joinTabs row ++ "\n") ++ gridDump rest

/-- Validity is a box: a position is valid exactly when its row and column are
non-negative and below fixed maxima (the specification's "fixed maximum
row/column bound" on zero-based positions). -/
def BoxValid (E : Env) (maxRows maxCols : Int) : Prop :=
  ∀ p, E.IsValid p = true ↔ (0 ≤ p.row ∧ p.row < maxRows ∧ 0 ≤ p.col ∧ p.col < maxCols)

/-- Position A2. -/
def A2 : Position := ⟨1, 0⟩

/-- The sentinel position used in the examples, outside the zero-based grid. -/
def noPosition : Position := ⟨-1, -1⟩

/-- A text cell as `SetCell` stores it. -/
def textCell (t : String) : Cell :=
  { impl_ := some (Impl.TextImpl t),
    cache_ := { val_ := Value.Text "", modification_flag_ := true } }

/-- Expression `1/0`: no reference, the execution raises `Div0`. -/
def astDivZero : FormulaAST :=
  { GetCells := [], PrintFormula := "1/0", Execute := .ret (.error FormulaError.Div0) }

/-- A formula cell as `SetCell` stores it. -/
def formulaCell (ast : FormulaAST) : Cell :=
  { impl_ := some (Impl.FormulaImpl (Formula.new ast)),
    cache_ := { val_ := Value.Text "", modification_flag_ := true } }

/-- A sheet whose only cell, at A1, holds the formula `=1/0`. -/
def sheetDivZero : Sheet :=
  { data_ := [(A1, formulaCell astDivZero)] }

/-! ## Conditions under which every read returns -/

/-- The engine's run asks only for positions of the list `refs`. -/
inductive AsksWithin (refs : List Position) : Exec → Prop
  | ret (r : Except FormulaError Int) : AsksWithin refs (.ret r)
  | ask (p : Position) (k : Option Value → Exec) :
      p ∈ refs → (∀ v, AsksWithin refs (k v)) → AsksWithin refs (.ask p k)

/-- Sheet `t` has the keys and contents of `s`, in the same order; only the
memoisation slots may differ. -/
def SameContent (s t : Sheet) : Prop :=
  t.data_.map (fun e => (e.1, e.2.impl_)) = s.data_.map (fun e => (e.1, e.2.impl_))

/-- Sheets on which every read returns a value: the stored cells are well formed, the
reference graph is acyclic, every referenced position holds a cell, and the run of
every stored formula asks only for the positions the formula lists. -/
def Evaluable (E : Env) (s : Sheet) : Prop :=
  WellFormed E s ∧ Acyclic s ∧ (∀ x y, Edge s x y → ∃ c, s.find y = some c) ∧
  (∀ p c f, s.find p = some c → c.impl_ = some (Impl.FormulaImpl f) →
    AsksWithin f.GetReferencedCells f.ast_.Execute)

/-- Rendering of a position in a text dump: the text of the cell stored there, the
empty string when there is none. -/
def textAt (s : Sheet) (p : Position) : String :=
  match s.find p with
  | some c => c.GetText
  | none => ""

/-- The reachable sheet after `SetCell(A1, "=B1")` and `ClearCell(B1)`: the formula at
A1 references B1, which has no cell. -/
def sheetDangling : Sheet :=
  (sheetA1B1.ClearCell demoEnv B1).2

/-- The sheet after `SetCell(A1, "1")`, `SetCell(B1, "2")`, `SetCell(A2, "3")`; B2 is
absent. -/
def sheetGrid : Sheet :=
  { data_ := [(A2, textCell "3"), (B1, textCell "2"), (A1, textCell "1")] }

/-! ## Storage lemmas -/

theorem lookup_filter (l : List (Position × Cell)) (pos p : Position) :
    lookup p (l.filter (fun e => decide (e.1 ≠ pos))) = if p = pos then none else lookup p l := by
  induction l with
  | nil => simp [lookup]
  | cons e rest ih =>
    by_cases h1 : e.1 = pos
    · by_cases h2 : p = pos
      · simp [List.filter_cons, h1, h2, lookup] at ih ⊢; exact ih
      · have h3 : ¬ pos = p := fun h => h2 h.symm
        simp [List.filter_cons, h1, h2, h3, lookup] at ih ⊢; exact ih
    · by_cases h2 : p = pos
      · simp [List.filter_cons, h1, h2, lookup] at ih ⊢; exact ih
      · by_cases h3 : e.1 = p
        · simp [List.filter_cons, h1, h2, h3, lookup]
        · simp [List.filter_cons, h1, h2, h3, lookup] at ih ⊢; exact ih

theorem find_erase (s : Sheet) (pos p : Position) :
    (s.erase pos).find p = if p = pos then none else s.find p := by
  simp only [Sheet.erase, Sheet.find]
  exact lookup_filter s.data_ pos p

theorem find_assign (s : Sheet) (pos p : Position) (c : Cell) :
    (s.assign pos c).find p = if p = pos then some c else s.find p := by
  by_cases h : p = pos
  · subst h; simp [Sheet.assign, Sheet.find, lookup]
  · have h2 : ¬ pos = p := fun e => h e.symm
    have := find_erase s pos p
    simp only [Sheet.find, h, if_false] at this
    simp [Sheet.assign, Sheet.find, h, h2, lookup, this]

theorem find_empty (p : Position) : Sheet.empty.find p = none := by
  simp [Sheet.empty, Sheet.find, lookup]

/-! ## The nested `SetCell(ref, "")` and the materialisation loop -/

theorem check_emptyCell (E : Env) (s : Sheet) (fuel : Nat) (head : Position) :
    s.CheckCircularDependencies E (fuel + 1) (some Cell.emptyCell) head = some (.ok false) := by
  simp [Sheet.CheckCircularDependencies, Cell.GetReferencedCells, Cell.emptyCell,
    Impl.GetReferencedCells, checkLoop]

theorem set_empty_text (E : Env) (f : Sheet → Position → String → Option (Except Failure Unit × Sheet))
    (s : Sheet) : Cell.Set E f Cell.new s "" = some (.ok (), Cell.emptyCell, s) := by
  simp [Cell.Set, Cell.new, Cell.emptyCell]

theorem SetCell_empty_run (E : Env) (fuel : Nat) (s : Sheet) (p : Position)
    (hv : E.IsValid p = true) :
    Sheet.SetCell E (fuel + 2) s p "" = some (.ok (), s.assign p Cell.emptyCell) := by
  rw [Sheet.SetCell]
  simp only [hv, if_true, set_empty_text, check_emptyCell]

theorem SetCell_empty_inv (E : Env) (fuel : Nat) (s : Sheet) (p : Position)
    (hv : E.IsValid p = true) (r : Except Failure Unit × Sheet)
    (h : Sheet.SetCell E fuel s p "" = some r) : r = (.ok (), s.assign p Cell.emptyCell) := by
  match fuel with
  | 0 => simp [Sheet.SetCell] at h
  | 1 => simp [Sheet.SetCell, hv, set_empty_text, Sheet.CheckCircularDependencies] at h
  | n + 2 => rw [SetCell_empty_run E n s p hv] at h; exact (Option.some.inj h).symm

theorem materialize_inv (E : Env) (fuel : Nat) (refs : List Position) :
    ∀ (s : Sheet) (r : Except Failure Unit × Sheet),
      materialize E (Sheet.SetCell E fuel) refs s = some r → r = matPure E refs s := by
  induction refs with
  | nil => intro s r h; simp [materialize] at h; simp [matPure, h]
  | cons x rest ih =>
    intro s r h
    unfold materialize at h
    unfold matPure
    by_cases hv : E.IsValid x = true
    · simp only [Sheet.GetCell, hv, if_true] at h ⊢
      cases hf : s.find x with
      | some c => simp only [hf] at h ⊢; exact ih s r h
      | none =>
        simp only [hf] at h ⊢
        cases hs : Sheet.SetCell E fuel s x "" with
        | none => simp [hs] at h
        | some q =>
          have hq := SetCell_empty_inv E fuel s x hv q hs
          subst hq
          simp only [hs] at h
          exact ih _ r h
    · simp only [Sheet.GetCell, hv] at h ⊢
      simp at h ⊢
      exact h.symm

theorem materialize_run (E : Env) (fuel : Nat) (refs : List Position) :
    ∀ (s : Sheet), materialize E (Sheet.SetCell E (fuel + 2)) refs s = some (matPure E refs s) := by
  induction refs with
  | nil => intro s; simp [materialize, matPure]
  | cons x rest ih =>
    intro s
    unfold materialize matPure
    by_cases hv : E.IsValid x = true
    · simp only [Sheet.GetCell, hv, if_true]
      cases hf : s.find x with
      | some c => simp only []; exact ih s
      | none => simp only [SetCell_empty_run E fuel s x hv]; exact ih _
    · simp only [Sheet.GetCell, hv]
      simp

theorem Set_inv (E : Env) (fuel : Nat) (s : Sheet) (text : String)
    (r : Except Failure Unit × Cell × Sheet)
    (h : Cell.Set E (Sheet.SetCell E fuel) Cell.new s text = some r) : r = setPure E s text := by
  unfold Cell.Set at h
  unfold setPure
  cases ht : text.data with
  | nil => simp only [ht] at h ⊢; simpa [Cell.new, Cell.emptyCell] using h.symm
  | cons ch rest =>
    simp only [ht] at h ⊢
    by_cases hc : ch = '=' ∧ rest ≠ []
    · simp only [hc, and_self, if_true, ne_eq, not_false_eq_true] at h ⊢
      cases hp : ParseFormula E (String.mk rest) with
      | none => simp only [hp] at h ⊢; simpa using h.symm
      | some f =>
        simp only [hp] at h ⊢
        cases hm : materialize E (Sheet.SetCell E fuel) f.GetReferencedCells s with
        | none => simp [hm] at h
        | some q =>
          have hq := materialize_inv E fuel _ s q hm
          rw [← hq]
          simp only [hm] at h
          obtain ⟨o, s1⟩ := q
          cases o with
          | error e => simpa [Cell.new] using h.symm
          | ok u => simpa [Cell.new] using h.symm
    · simp only [hc, if_false] at h ⊢
      simpa [Cell.new] using h.symm

theorem Set_run (E : Env) (fuel : Nat) (s : Sheet) (text : String) :
    Cell.Set E (Sheet.SetCell E (fuel + 2)) Cell.new s text = some (setPure E s text) := by
  unfold Cell.Set setPure
  cases ht : text.data with
  | nil => simp [Cell.new, Cell.emptyCell]
  | cons ch rest =>
    simp only []
    by_cases hc : ch = '=' ∧ rest ≠ []
    · rw [if_pos hc, if_pos hc]
      cases hp : ParseFormula E (String.mk rest) with
      | none => simp
      | some f =>
        simp only [materialize_run]
        cases hq : matPure E f.GetReferencedCells s with
        | mk o s1 =>
          cases o with
          | error e => simp [Cell.new]
          | ok u => simp [Cell.new]
    · rw [if_neg hc, if_neg hc]
      simp [Cell.new]

/-! ## What materialisation changes -/

theorem refsOf_emptyCell : refsOf (some Cell.emptyCell) = [] := rfl

/-- After the loop a position holds what it held, or it was absent, is a valid
reference of the list and now holds the empty cell. -/
theorem matPure_find (E : Env) (refs : List Position) :
    ∀ (s : Sheet) (p : Position),
      (matPure E refs s).2.find p = s.find p ∨
      (s.find p = none ∧ (matPure E refs s).2.find p = some Cell.emptyCell ∧
        p ∈ refs ∧ E.IsValid p = true) := by
  induction refs with
  | nil => intro s p; left; rfl
  | cons x rest ih =>
    intro s p
    unfold matPure
    by_cases hv : E.IsValid x = true
    · simp only [hv, if_true]
      cases hf : s.find x with
      | some c =>
        simp only []
        rcases ih s p with h | ⟨h1, h2, h3, h4⟩
        · left; exact h
        · right; exact ⟨h1, h2, List.mem_cons_of_mem _ h3, h4⟩
      | none =>
        simp only []
        rcases ih (s.assign x Cell.emptyCell) p with h | ⟨h1, h2, h3, h4⟩
        · rw [find_assign] at h
          by_cases hp : p = x
          · right
            rw [if_pos hp] at h
            subst hp
            exact ⟨hf, h, List.mem_cons_self _ _, hv⟩
          · left; rw [if_neg hp] at h; exact h
        · rw [find_assign] at h1
          by_cases hp : p = x
          · rw [if_pos hp] at h1; cases h1
          · rw [if_neg hp] at h1
            right; exact ⟨h1, h2, List.mem_cons_of_mem _ h3, h4⟩
    · simp only [hv]
      left; rfl

theorem matPure_refsOf (E : Env) (refs : List Position) (s : Sheet) (p : Position) :
    refsOf ((matPure E refs s).2.find p) = refsOf (s.find p) := by
  rcases matPure_find E refs s p with h | ⟨h1, h2, _, _⟩
  · rw [h]
  · rw [h1, h2]; rfl

theorem matPure_ok (E : Env) (refs : List Position) :
    ∀ (s : Sheet), (matPure E refs s).1 = .ok () →
      ∀ p ∈ refs, E.IsValid p = true ∧ ∃ c, (matPure E refs s).2.find p = some c := by
  induction refs with
  | nil => intro s _ p hp; cases hp
  | cons x rest ih =>
    intro s h p hp
    unfold matPure at h ⊢
    by_cases hv : E.IsValid x = true
    · simp only [hv, if_true] at h ⊢
      cases hf : s.find x with
      | some c =>
        simp only [hf] at h ⊢
        rcases List.mem_cons.mp hp with rfl | hp2
        · refine ⟨hv, ?_⟩
          rcases matPure_find E rest s p with h2 | ⟨h2, _, _, _⟩
          · exact ⟨c, by rw [h2, hf]⟩
          · rw [hf] at h2; cases h2
        · exact ih s h p hp2
      | none =>
        simp only [hf] at h ⊢
        rcases List.mem_cons.mp hp with rfl | hp2
        · refine ⟨hv, ?_⟩
          rcases matPure_find E rest (s.assign p Cell.emptyCell) p with h2 | ⟨h2, _, _, _⟩
          · exact ⟨Cell.emptyCell, by rw [h2, find_assign, if_pos rfl]⟩
          · rw [find_assign, if_pos rfl] at h2; cases h2
        · exact ih _ h p hp2
    · simp [hv] at h

theorem matPure_error (E : Env) (refs : List Position) :
    ∀ (s : Sheet) (e : Failure), (matPure E refs s).1 = .error e →
      ∃ p ∈ refs, E.IsValid p = false := by
  induction refs with
  | nil => intro s e h; simp [matPure] at h
  | cons x rest ih =>
    intro s e h
    unfold matPure at h
    by_cases hv : E.IsValid x = true
    · simp only [hv, if_true] at h
      cases hf : s.find x with
      | some c =>
        simp only [hf] at h
        obtain ⟨p, hp, hq⟩ := ih s e h
        exact ⟨p, List.mem_cons_of_mem _ hp, hq⟩
      | none =>
        simp only [hf] at h
        obtain ⟨p, hp, hq⟩ := ih _ e h
        exact ⟨p, List.mem_cons_of_mem _ hp, hq⟩
    · exact ⟨x, List.mem_cons_self _ _, by simpa using hv⟩

theorem matPure_valid (E : Env) (refs : List Position) :
    ∀ (s : Sheet), (∀ p ∈ refs, E.IsValid p = true) → (matPure E refs s).1 = .ok () := by
  intro s h
  cases hm : (matPure E refs s).1 with
  | ok u => rfl
  | error e =>
    obtain ⟨p, hp, hq⟩ := matPure_error E refs s e hm
    rw [h p hp] at hq; cases hq

theorem length_erase (s : Sheet) (pos : Position) : (s.erase pos).data_.length ≤ s.data_.length := by
  simp only [Sheet.erase]
  exact List.length_filter_le _ _

theorem matPure_length (E : Env) (refs : List Position) :
    ∀ (s : Sheet), (matPure E refs s).2.data_.length ≤ s.data_.length + refs.length := by
  induction refs with
  | nil => intro s; simp [matPure]
  | cons x rest ih =>
    intro s
    unfold matPure
    by_cases hv : E.IsValid x = true
    · simp only [hv, if_true]
      cases hf : s.find x with
      | some c => simp only []; have := ih s; simp only [List.length_cons]; omega
      | none =>
        simp only []
        have h1 := ih (s.assign x Cell.emptyCell)
        have h2 := length_erase s x
        simp only [Sheet.assign, List.length_cons] at h1 ⊢
        omega
    · simp only [hv]
      simp

/-! ## The cycle check computes reachability -/

theorem checkLoop_true (rec : Position → Option (Except Failure Bool)) (head : Position)
    (l : List Position) :
    ∀ res, checkLoop rec head l res = some (.ok true) →
      res = true ∨ head ∈ l ∨ ∃ x ∈ l, rec x = some (.ok true) := by
  induction l with
  | nil => intro res h; simp [checkLoop] at h; exact Or.inl h
  | cons x rest ih =>
    intro res h
    unfold checkLoop at h
    by_cases hx : x = head
    · right; left; rw [hx]; exact List.mem_cons_self _ _
    · rw [if_neg hx] at h
      cases res with
      | true => left; rfl
      | false =>
        right
        simp only [Bool.false_eq_true, if_false] at h
        cases hr : rec x with
        | none => simp [hr] at h
        | some o =>
          cases o with
          | error e => simp [hr] at h
          | ok b =>
            simp only [hr] at h
            rcases ih b h with hb | hm | ⟨y, hy, hy2⟩
            · right; exact ⟨x, List.mem_cons_self _ _, by rw [hr, hb]⟩
            · left; exact List.mem_cons_of_mem _ hm
            · right; exact ⟨y, List.mem_cons_of_mem _ hy, hy2⟩

theorem checkLoop_false (rec : Position → Option (Except Failure Bool)) (head : Position)
    (l : List Position) :
    ∀ res, checkLoop rec head l res = some (.ok false) →
      res = false ∧ head ∉ l ∧ ∀ x ∈ l, rec x = some (.ok false) := by
  induction l with
  | nil => intro res h; simp [checkLoop] at h; simp [h]
  | cons x rest ih =>
    intro res h
    unfold checkLoop at h
    by_cases hx : x = head
    · rw [if_pos hx] at h; simp at h
    · rw [if_neg hx] at h
      cases res with
      | true =>
        simp only [if_true] at h
        have := (ih true h).1
        cases this
      | false =>
        simp only [Bool.false_eq_true, if_false] at h
        cases hr : rec x with
        | none => simp [hr] at h
        | some o =>
          cases o with
          | error e => simp [hr] at h
          | ok b =>
            simp only [hr] at h
            obtain ⟨hb, hm, hall⟩ := ih b h
            refine ⟨rfl, ?_, ?_⟩
            · intro hmem
              rcases List.mem_cons.mp hmem with h1 | h1
              · exact hx h1.symm
              · exact hm h1
            · intro y hy
              rcases List.mem_cons.mp hy with h1 | h1
              · rw [h1, hr, hb]
              · exact hall y h1

theorem checkLoop_error (rec : Position → Option (Except Failure Bool)) (head : Position)
    (l : List Position) (e : Failure) :
    ∀ res, checkLoop rec head l res = some (.error e) → ∃ x ∈ l, rec x = some (.error e) := by
  induction l with
  | nil => intro res h; simp [checkLoop] at h
  | cons x rest ih =>
    intro res h
    unfold checkLoop at h
    by_cases hx : x = head
    · rw [if_pos hx] at h; simp at h
    · rw [if_neg hx] at h
      cases res with
      | true =>
        simp only [if_true] at h
        obtain ⟨y, hy, hy2⟩ := ih true h
        exact ⟨y, List.mem_cons_of_mem _ hy, hy2⟩
      | false =>
        simp only [Bool.false_eq_true, if_false] at h
        cases hr : rec x with
        | none => simp [hr] at h
        | some o =>
          cases o with
          | error e2 =>
            simp only [hr] at h
            exact ⟨x, List.mem_cons_self _ _, by rw [hr]; exact h⟩
          | ok b =>
            simp only [hr] at h
            obtain ⟨y, hy, hy2⟩ := ih b h
            exact ⟨y, List.mem_cons_of_mem _ hy, hy2⟩

theorem checkLoop_some (rec : Position → Option (Except Failure Bool)) (head : Position)
    (l : List Position) (hrec : ∀ x ∈ l, ∃ r, rec x = some r) :
    ∀ res, ∃ r, checkLoop rec head l res = some r := by
  induction l with
  | nil => intro res; exact ⟨_, rfl⟩
  | cons x rest ih =>
    intro res
    have ih2 := ih (fun y hy => hrec y (List.mem_cons_of_mem _ hy))
    unfold checkLoop
    by_cases hx : x = head
    · rw [if_pos hx]; exact ⟨_, rfl⟩
    · rw [if_neg hx]
      cases res with
      | true => simp only [if_true]; exact ih2 true
      | false =>
        simp only [Bool.false_eq_true, if_false]
        obtain ⟨r, hr⟩ := hrec x (List.mem_cons_self _ _)
        rw [hr]
        cases r with
        | error e => exact ⟨_, rfl⟩
        | ok b => exact ih2 b

theorem refsOf_some (c : Cell) (refs : List Position) (h : c.GetReferencedCells = .ok refs) :
    refsOf (some c) = refs := by
  obtain ⟨impl, cache⟩ := c
  cases impl with
  | none => simp [Cell.GetReferencedCells] at h
  | some i => simp [Cell.GetReferencedCells] at h; simp [refsOf, h]

/-- Whenever the check returns a flag, the flag says whether `head` is reached from
the cell's references. -/
theorem check_sound (E : Env) (s : Sheet) (head : Position) :
    ∀ (fuel : Nat) (co : Option Cell) (b : Bool),
      s.CheckCircularDependencies E fuel co head = some (.ok b) →
      (b = true ↔ ReachableFrom s (refsOf co) head) := by
  intro fuel
  induction fuel with
  | zero => intro co b h; simp [Sheet.CheckCircularDependencies] at h
  | succ n ih =>
    intro co b h
    cases co with
    | none =>
      simp [Sheet.CheckCircularDependencies] at h
      subst h
      simp [ReachableFrom, refsOf]
    | some cell =>
      rw [Sheet.CheckCircularDependencies] at h
      cases hr : cell.GetReferencedCells with
      | error e => simp [hr] at h
      | ok refs =>
        simp only [hr] at h
        rw [refsOf_some cell refs hr]
        cases b with
        | true =>
          simp only [true_iff]
          rcases checkLoop_true _ head refs false h with h1 | h1 | ⟨x, hx, h1⟩
          · cases h1
          · exact ⟨head, h1, Relation.ReflTransGen.refl⟩
          · simp only [Sheet.GetCell] at h1
            by_cases hv : E.IsValid x = true
            · simp only [hv, if_true] at h1
              obtain ⟨y, hy, hy2⟩ := (ih (s.find x) true h1).mp rfl
              exact ⟨x, hx, Relation.ReflTransGen.head hy hy2⟩
            · simp [hv] at h1
        | false =>
          simp only [Bool.false_eq_true, false_iff]
          obtain ⟨_, hm, hall⟩ := checkLoop_false _ head refs false h
          rintro ⟨x, hx, hpath⟩
          rcases Relation.ReflTransGen.cases_head hpath with heq | ⟨y, hy, hy2⟩
          · rw [heq] at hx; exact hm hx
          · have h1 := hall x hx
            simp only [Sheet.GetCell] at h1
            by_cases hv : E.IsValid x = true
            · simp only [hv, if_true] at h1
              have := (ih (s.find x) false h1).mpr ⟨y, hy, hy2⟩
              cases this
            · simp [hv] at h1

/-! ## The cycle check returns on an acyclic sheet -/

theorem lookup_mem (p : Position) (l : List (Position × Cell)) (c : Cell)
    (h : lookup p l = some c) : p ∈ l.map Prod.fst := by
  induction l with
  | nil => simp [lookup] at h
  | cons e rest ih =>
    unfold lookup at h
    by_cases he : e.1 = p
    · simp [he]
    · rw [if_neg he] at h
      simp only [List.map_cons, List.mem_cons]
      right; exact ih h

theorem nodup_length_le (V K : List Position) (hn : V.Nodup) (hs : ∀ v ∈ V, v ∈ K) :
    V.length ≤ K.length :=
  (List.Nodup.subperm hn hs).length_le

/-- On an acyclic sheet the recursion below a position `x` returns as soon as the
budget exceeds the number of stored cells not yet on the current chain `V`. -/
theorem check_returns (E : Env) (s : Sheet) (hac : Acyclic s) (head : Position) :
    ∀ (fuel : Nat) (V : List Position) (x : Position),
      V.Nodup → (∀ v ∈ V, v ∈ s.data_.map Prod.fst) →
      (∀ v ∈ V, Relation.TransGen (Edge s) v x) →
      s.data_.length < fuel + V.length →
      ∃ r, s.CheckCircularDependencies E fuel (s.find x) head = some r := by
  intro fuel
  induction fuel with
  | zero =>
    intro V x hn hk _ hlen
    have := nodup_length_le V _ hn hk
    simp only [List.length_map] at this
    omega
  | succ n ih =>
    intro V x hn hk hreach hlen
    cases hf : s.find x with
    | none => exact ⟨_, rfl⟩
    | some cell =>
      rw [Sheet.CheckCircularDependencies]
      cases hr : cell.GetReferencedCells with
      | error e => exact ⟨_, rfl⟩
      | ok refs =>
        simp only []
        apply checkLoop_some
        intro y hy
        simp only [Sheet.GetCell]
        by_cases hv : E.IsValid y = true
        · simp only [hv, if_true]
          have hedge : Edge s x y := by
            unfold Edge; rw [hf, refsOf_some cell refs hr]; exact hy
          have hxV : x ∉ V := fun hx => hac x (hreach x hx)
          apply ih (x :: V) y
          · exact List.nodup_cons.mpr ⟨hxV, hn⟩
          · intro v hv2
            rcases List.mem_cons.mp hv2 with h1 | h1
            · rw [h1]; exact lookup_mem x s.data_ cell hf
            · exact hk v h1
          · intro v hv2
            rcases List.mem_cons.mp hv2 with h1 | h1
            · rw [h1]; exact Relation.TransGen.single hedge
            · exact Relation.TransGen.tail (hreach v h1) hedge
          · simp only [List.length_cons]; omega
        · simp only [hv]
          exact ⟨_, rfl⟩

theorem check_no_error (E : Env) (s : Sheet) (hwf : WellFormed E s) (head : Position) :
    ∀ (fuel : Nat) (x : Position) (e : Failure),
      s.CheckCircularDependencies E fuel (s.find x) head ≠ some (.error e) := by
  intro fuel
  induction fuel with
  | zero => intro x e h; simp [Sheet.CheckCircularDependencies] at h
  | succ n ih =>
    intro x e h
    cases hf : s.find x with
    | none => rw [hf] at h; simp [Sheet.CheckCircularDependencies] at h
    | some cell =>
      rw [hf, Sheet.CheckCircularDependencies] at h
      obtain ⟨_, i, hi, hvalid⟩ := hwf x cell hf
      have hr : cell.GetReferencedCells = .ok i.GetReferencedCells := by
        simp [Cell.GetReferencedCells, hi]
      simp only [hr] at h
      obtain ⟨y, hy, hy2⟩ := checkLoop_error _ head _ e false h
      simp only [Sheet.GetCell, hvalid y hy, if_true] at hy2
      exact ih y e hy2

/-- Outcome of the cycle check on a candidate whose references are valid, over a
well-formed acyclic sheet: with budget above the number of stored cells plus one
it returns a flag, and the flag is reachability of `head`. -/
theorem check_candidate (E : Env) (s : Sheet) (hwf : WellFormed E s) (hac : Acyclic s)
    (cand : Cell) (refs : List Position) (hc : cand.GetReferencedCells = .ok refs)
    (hvalid : ∀ r ∈ refs, E.IsValid r = true) (head : Position) (fuel : Nat)
    (hfuel : s.data_.length + 2 ≤ fuel) :
    ∃ b, s.CheckCircularDependencies E fuel (some cand) head = some (.ok b) ∧
      (b = true ↔ ReachableFrom s refs head) := by
  obtain ⟨n, rfl⟩ : ∃ n, fuel = n + 1 := ⟨fuel - 1, by omega⟩
  have hret : ∃ r, s.CheckCircularDependencies E (n + 1) (some cand) head = some r := by
    rw [Sheet.CheckCircularDependencies]
    simp only [hc]
    apply checkLoop_some
    intro y hy
    simp only [Sheet.GetCell, hvalid y hy, if_true]
    apply check_returns E s hac head n [] y List.nodup_nil
    · intro v hv; cases hv
    · intro v hv; cases hv
    · simp only [List.length_nil]; omega
  obtain ⟨r, hr⟩ := hret
  cases r with
  | error e =>
    exfalso
    rw [Sheet.CheckCircularDependencies] at hr
    simp only [hc] at hr
    obtain ⟨y, hy, hy2⟩ := checkLoop_error _ head _ e false hr
    simp only [Sheet.GetCell, hvalid y hy, if_true] at hy2
    exact check_no_error E s hwf head n y e hy2
  | ok b =>
    refine ⟨b, hr, ?_⟩
    have := check_sound E s head (n + 1) (some cand) b hr
    rw [refsOf_some cand refs hc] at this
    exact this

/-! ## `SetCell` in closed form -/

theorem SetCell_invalid (E : Env) (fuel : Nat) (s : Sheet) (pos : Position) (text : String)
    (hv : E.IsValid pos = false) :
    Sheet.SetCell E (fuel + 1) s pos text = some (.error Failure.InvalidPosition, s) := by
  rw [Sheet.SetCell]; simp [hv]

theorem SetCell_inv (E : Env) (fuel : Nat) (s : Sheet) (pos : Position) (text : String)
    (q : Except Failure Unit × Sheet) (h : Sheet.SetCell E fuel s pos text = some q) :
    (E.IsValid pos = false ∧ q = (.error Failure.InvalidPosition, s)) ∨
    (E.IsValid pos = true ∧
      ((∃ e, (setPure E s text).1 = .error e ∧ q = (.error e, (setPure E s text).2.2)) ∨
       ((setPure E s text).1 = .ok () ∧ ∃ n chk,
          (setPure E s text).2.2.CheckCircularDependencies E n (some (setPure E s text).2.1) pos
            = some chk ∧
          q = commit chk (setPure E s text).2.2 pos (setPure E s text).2.1))) := by
  cases fuel with
  | zero => simp [Sheet.SetCell] at h
  | succ n =>
    by_cases hv : E.IsValid pos = true
    · right
      refine ⟨hv, ?_⟩
      rw [Sheet.SetCell] at h
      simp only [hv, if_true] at h
      cases hs : Cell.Set E (Sheet.SetCell E n) Cell.new s text with
      | none => simp [hs] at h
      | some r =>
        have hr := Set_inv E n s text r hs
        rw [hs, hr] at h
        cases hp : setPure E s text with
        | mk o rest =>
          obtain ⟨cand, s1⟩ := rest
          rw [hp] at h
          cases o with
          | error e =>
            left
            simp only [Option.some.injEq] at h
            exact ⟨e, rfl, h.symm⟩
          | ok u =>
            right
            refine ⟨rfl, n, ?_⟩
            simp only [] at h ⊢
            cases hc : s1.CheckCircularDependencies E n (some cand) pos with
            | none => simp [hc] at h
            | some chk =>
              refine ⟨chk, rfl, ?_⟩
              rw [hc] at h
              cases chk with
              | error e => simp only [Option.some.injEq] at h; simp [commit, ← h]
              | ok b =>
                cases b with
                | true => simp only [Option.some.injEq] at h; simp [commit, ← h]
                | false => simp only [Option.some.injEq] at h; simp [commit, ← h]
    · left
      have hv2 : E.IsValid pos = false := by simpa using hv
      rw [SetCell_invalid E n s pos text hv2] at h
      exact ⟨hv2, (Option.some.inj h).symm⟩

theorem SetCell_run_error (E : Env) (fuel : Nat) (s : Sheet) (pos : Position) (text : String)
    (hv : E.IsValid pos = true) (e : Failure) (he : (setPure E s text).1 = .error e) :
    Sheet.SetCell E (fuel + 3) s pos text = some (.error e, (setPure E s text).2.2) := by
  rw [Sheet.SetCell]
  simp only [hv, if_true, Set_run]
  cases hp : setPure E s text with
  | mk o rest =>
    obtain ⟨cand, s1⟩ := rest
    rw [hp] at he
    simp only [] at he
    subst he
    rfl

theorem SetCell_run_ok (E : Env) (fuel : Nat) (s : Sheet) (pos : Position) (text : String)
    (hv : E.IsValid pos = true) (he : (setPure E s text).1 = .ok ())
    (chk : Except Failure Bool)
    (hc : (setPure E s text).2.2.CheckCircularDependencies E (fuel + 2)
      (some (setPure E s text).2.1) pos = some chk) :
    Sheet.SetCell E (fuel + 3) s pos text
      = some (commit chk (setPure E s text).2.2 pos (setPure E s text).2.1) := by
  rw [Sheet.SetCell]
  simp only [hv, if_true, Set_run]
  cases hp : setPure E s text with
  | mk o rest =>
    obtain ⟨cand, s1⟩ := rest
    rw [hp] at he hc
    simp only [] at he hc
    subst he
    simp only [hc]
    cases chk with
    | error e => rfl
    | ok b => cases b <;> rfl

/-! ## What building the candidate changes -/

theorem setPure_formula (E : Env) (s : Sheet) (text : String) (rest : List Char) (f : Formula)
    (ht : text.data = '=' :: rest) (hr : rest ≠ [])
    (hp : ParseFormula E (String.mk rest) = some f) :
    setPure E s text =
      match matPure E f.GetReferencedCells s with
      | (.error _, s1) =>
        (.error Failure.FormulaSyntaxError, { Cell.new with impl_ := some (Impl.FormulaImpl f) }, s1)
      | (.ok (), s1) =>
        (.ok (), { impl_ := some (Impl.FormulaImpl f),
                   cache_ := { val_ := Value.Text "", modification_flag_ := true } }, s1) := by
  unfold setPure
  simp only [ht, hr, ne_eq, not_false_eq_true, and_self, if_true, hp]

theorem setPure_find (E : Env) (s : Sheet) (text : String) (p : Position) :
    (setPure E s text).2.2.find p = s.find p ∨
    (s.find p = none ∧ (setPure E s text).2.2.find p = some Cell.emptyCell ∧
      p ∈ refsOf (some (setPure E s text).2.1) ∧ E.IsValid p = true) := by
  unfold setPure
  cases ht : text.data with
  | nil => left; rfl
  | cons ch rest =>
    simp only []
    by_cases hc : ch = '=' ∧ rest ≠ []
    · rw [if_pos hc]
      cases hp : ParseFormula E (String.mk rest) with
      | none => left; rfl
      | some f =>
        simp only []
        have hm := matPure_find E f.GetReferencedCells s p
        cases hq : matPure E f.GetReferencedCells s with
        | mk o s1 =>
          rw [hq] at hm
          cases o with
          | error e => exact hm
          | ok u => exact hm
    · rw [if_neg hc]; left; rfl

theorem setPure_refsOf (E : Env) (s : Sheet) (text : String) (p : Position) :
    refsOf ((setPure E s text).2.2.find p) = refsOf (s.find p) := by
  rcases setPure_find E s text p with h | ⟨h1, h2, _, _⟩
  · rw [h]
  · rw [h1, h2]; rfl

theorem setPure_cand (E : Env) (s : Sheet) (text : String) (h : (setPure E s text).1 = .ok ()) :
    ∃ i, (setPure E s text).2.1.impl_ = some i ∧
      ∀ r ∈ i.GetReferencedCells,
        E.IsValid r = true ∧ ∃ c, (setPure E s text).2.2.find r = some c := by
  unfold setPure at h ⊢
  cases ht : text.data with
  | nil => exact ⟨Impl.EmptyImpl, rfl, fun r hr => by cases hr⟩
  | cons ch rest =>
    simp only [ht] at h ⊢
    by_cases hc : ch = '=' ∧ rest ≠ []
    · rw [if_pos hc] at h ⊢
      cases hp : ParseFormula E (String.mk rest) with
      | none => simp [hp] at h
      | some f =>
        simp only [hp] at h ⊢
        have hm := matPure_ok E f.GetReferencedCells s
        cases hq : matPure E f.GetReferencedCells s with
        | mk o s1 =>
          rw [hq] at hm h
          cases o with
          | error e => simp at h
          | ok u => exact ⟨Impl.FormulaImpl f, rfl, fun r hr => hm rfl r hr⟩
    · rw [if_neg hc]
      exact ⟨Impl.TextImpl text, rfl, fun r hr => by cases hr⟩

theorem setPure_length (E : Env) (s : Sheet) (text : String) :
    (setPure E s text).2.2.data_.length
      ≤ s.data_.length + (refsOf (some (setPure E s text).2.1)).length := by
  unfold setPure
  cases ht : text.data with
  | nil => simp
  | cons ch rest =>
    simp only []
    by_cases hc : ch = '=' ∧ rest ≠ []
    · rw [if_pos hc]
      cases hp : ParseFormula E (String.mk rest) with
      | none => simp
      | some f =>
        simp only []
        have hm := matPure_length E f.GetReferencedCells s
        cases hq : matPure E f.GetReferencedCells s with
        | mk o s1 =>
          rw [hq] at hm
          cases o with
          | error e => exact hm
          | ok u => exact hm
    · rw [if_neg hc]; simp

/-! ## Invariants of the stored graph -/

theorem wf_empty (E : Env) : WellFormed E Sheet.empty := by
  intro p c h; rw [find_empty] at h; cases h

theorem wf_erase (E : Env) (s : Sheet) (pos : Position) (h : WellFormed E s) :
    WellFormed E (s.erase pos) := by
  intro p c hf
  rw [find_erase] at hf
  by_cases hp : p = pos
  · rw [if_pos hp] at hf; cases hf
  · rw [if_neg hp] at hf; exact h p c hf

theorem wf_assign (E : Env) (s : Sheet) (pos : Position) (cand : Cell) (h : WellFormed E s)
    (hv : E.IsValid pos = true)
    (hc : ∃ i, cand.impl_ = some i ∧ ∀ r ∈ i.GetReferencedCells, E.IsValid r = true) :
    WellFormed E (s.assign pos cand) := by
  intro p c hf
  rw [find_assign] at hf
  by_cases hp : p = pos
  · rw [if_pos hp] at hf
    cases hf
    rw [hp]; exact ⟨hv, hc⟩
  · rw [if_neg hp] at hf; exact h p c hf

theorem wf_setPure (E : Env) (s : Sheet) (text : String) (h : WellFormed E s) :
    WellFormed E (setPure E s text).2.2 := by
  intro p c hf
  rcases setPure_find E s text p with h1 | ⟨_, h2, _, h4⟩
  · rw [h1] at hf; exact h p c hf
  · rw [h2] at hf
    cases hf
    exact ⟨h4, Impl.EmptyImpl, rfl, fun r hr => by cases hr⟩

theorem edge_mono_acyclic (s t : Sheet) (h : ∀ x y, Edge t x y → Edge s x y) (hac : Acyclic s) :
    Acyclic t := by
  intro x hx
  exact hac x (Relation.TransGen.mono h hx)

theorem acyclic_empty : Acyclic Sheet.empty := by
  intro x hx
  have : ∀ a b, Relation.TransGen (Edge Sheet.empty) a b → False := by
    intro a b hab
    induction hab with
    | single h => simp [Edge, find_empty, refsOf] at h
    | tail _ h _ => simp [Edge, find_empty, refsOf] at h
  exact this x x hx

theorem acyclic_erase (s : Sheet) (pos : Position) (h : Acyclic s) : Acyclic (s.erase pos) := by
  apply edge_mono_acyclic s _ _ h
  intro x y hxy
  unfold Edge at hxy ⊢
  rw [find_erase] at hxy
  by_cases hp : x = pos
  · rw [if_pos hp] at hxy; simp [refsOf] at hxy
  · rw [if_neg hp] at hxy; exact hxy

theorem acyclic_setPure (E : Env) (s : Sheet) (text : String) (h : Acyclic s) :
    Acyclic (setPure E s text).2.2 := by
  apply edge_mono_acyclic s _ _ h
  intro x y hxy
  unfold Edge at hxy ⊢
  rw [setPure_refsOf] at hxy
  exact hxy

theorem reach_setPure (E : Env) (s : Sheet) (text : String) (refs : List Position)
    (head : Position) :
    ReachableFrom (setPure E s text).2.2 refs head ↔ ReachableFrom s refs head := by
  have he : Edge (setPure E s text).2.2 = Edge s := by
    funext x y
    unfold Edge
    rw [setPure_refsOf]
  unfold ReachableFrom
  rw [he]

theorem refsOf_assign (s : Sheet) (pos x : Position) (cand : Cell) :
    refsOf ((s.assign pos cand).find x) = if x = pos then refsOf (some cand) else refsOf (s.find x) := by
  rw [find_assign]
  by_cases h : x = pos
  · rw [if_pos h, if_pos h]
  · rw [if_neg h, if_neg h]

/-- Paths to `pos` never need an edge that leaves `pos`, so they survive the
replacement of the cell stored at `pos`. -/
theorem reach_pos_assign (s : Sheet) (pos : Position) (cand : Cell) (a : Position)
    (h : Relation.ReflTransGen (Edge (s.assign pos cand)) a pos) :
    Relation.ReflTransGen (Edge s) a pos := by
  induction h using Relation.ReflTransGen.head_induction_on with
  | refl => exact Relation.ReflTransGen.refl
  | @head a2 b2 hab _ ih =>
    by_cases ha : a2 = pos
    · rw [ha]
    · have : Edge s a2 b2 := by
        unfold Edge at hab ⊢
        rw [refsOf_assign, if_neg ha] at hab
        exact hab
      exact Relation.ReflTransGen.head this ih

/-- Committing a candidate at `pos` keeps the graph acyclic when `pos` is not
reached from the candidate's references. -/
theorem acyclic_assign (s : Sheet) (pos : Position) (cand : Cell) (hac : Acyclic s)
    (hno : ¬ ReachableFrom s (refsOf (some cand)) pos) : Acyclic (s.assign pos cand) := by
  have key : ∀ x z, Relation.TransGen (Edge (s.assign pos cand)) x z →
      Relation.TransGen (Edge s) x z ∨
      ∃ r ∈ refsOf (some cand), Relation.ReflTransGen (Edge (s.assign pos cand)) r z ∧
        Relation.ReflTransGen (Edge (s.assign pos cand)) x pos := by
    intro x z hxz
    induction hxz with
    | single h =>
      rename_i b
      by_cases hx : x = pos
      · right
        unfold Edge at h
        rw [refsOf_assign, if_pos hx] at h
        exact ⟨b, h, Relation.ReflTransGen.refl, by rw [hx]⟩
      · left
        unfold Edge at h
        rw [refsOf_assign, if_neg hx] at h
        exact Relation.TransGen.single h
    | tail hxy hyz ih =>
      rename_i y z2
      rcases ih with h1 | ⟨r, hr, hr2, hr3⟩
      · by_cases hy : y = pos
        · right
          have hz := hyz
          unfold Edge at hz
          rw [refsOf_assign, if_pos hy] at hz
          refine ⟨z2, hz, Relation.ReflTransGen.refl, ?_⟩
          have hp := Relation.TransGen.to_reflTransGen hxy
          rw [hy] at hp
          exact hp
        · left
          unfold Edge at hyz
          rw [refsOf_assign, if_neg hy] at hyz
          exact Relation.TransGen.tail h1 hyz
      · right
        exact ⟨r, hr, Relation.ReflTransGen.tail hr2 hyz, hr3⟩
  intro x hx
  rcases key x x hx with h | ⟨r, hr, hr2, hr3⟩
  · exact hac x h
  · exact hno ⟨r, hr, reach_pos_assign s pos cand r (Relation.ReflTransGen.trans hr2 hr3)⟩

/-- One `SetCell` call, whatever its outcome, keeps the stored cells well formed
and the reference graph acyclic. -/
theorem SetCell_preserves (E : Env) (fuel : Nat) (s : Sheet) (pos : Position) (text : String)
    (q : Except Failure Unit × Sheet) (h : Sheet.SetCell E fuel s pos text = some q)
    (hwf : WellFormed E s) (hac : Acyclic s) : WellFormed E q.2 ∧ Acyclic q.2 := by
  rcases SetCell_inv E fuel s pos text q h with ⟨_, hq⟩ | ⟨hv, ⟨e, _, hq⟩ | ⟨hok, n, chk, hchk, hq⟩⟩
  · rw [hq]; exact ⟨hwf, hac⟩
  · rw [hq]; exact ⟨wf_setPure E s text hwf, acyclic_setPure E s text hac⟩
  · rw [hq]
    cases chk with
    | error e => exact ⟨wf_setPure E s text hwf, acyclic_setPure E s text hac⟩
    | ok b =>
      cases b with
      | true => exact ⟨wf_setPure E s text hwf, acyclic_setPure E s text hac⟩
      | false =>
        obtain ⟨i, hi, hrefs⟩ := setPure_cand E s text hok
        constructor
        · exact wf_assign E _ pos _ (wf_setPure E s text hwf) hv
            ⟨i, hi, fun r hr => (hrefs r hr).1⟩
        · apply acyclic_assign _ pos _ (acyclic_setPure E s text hac)
          intro hreach
          have := (check_sound E _ pos n _ false hchk).mpr hreach
          cases this

theorem reachable_invariant (E : Env) (s : Sheet) (h : Reachable E s) :
    WellFormed E s ∧ Acyclic s := by
  induction h with
  | empty => exact ⟨wf_empty E, acyclic_empty⟩
  | setCell _ hstep ih => exact SetCell_preserves E _ _ _ _ _ hstep ih.1 ih.2
  | clearCell pos _ ih =>
    unfold Sheet.ClearCell
    by_cases hv : E.IsValid pos = true
    · simp only [hv, if_true]
      exact ⟨wf_erase E _ pos ih.1, acyclic_erase _ pos ih.2⟩
    · simp only [hv]
      exact ih

/-! ## Frame of a failed `SetCell` -/

theorem setPure_refs_parse (E : Env) (s : Sheet) (text : String) (p : Position)
    (h : p ∈ refsOf (some (setPure E s text).2.1)) :
    ∃ rest f, text.data = '=' :: rest ∧ ParseFormula E (String.mk rest) = some f ∧
      p ∈ f.GetReferencedCells := by
  unfold setPure at h
  cases ht : text.data with
  | nil => simp [ht, refsOf, Cell.emptyCell, Impl.GetReferencedCells] at h
  | cons ch rest =>
    simp only [ht] at h
    by_cases hc : ch = '=' ∧ rest ≠ []
    · rw [if_pos hc] at h
      cases hp : ParseFormula E (String.mk rest) with
      | none => simp [hp, refsOf, Cell.new, Impl.GetReferencedCells] at h
      | some f =>
        simp only [hp] at h
        refine ⟨rest, f, by rw [hc.1], hp, ?_⟩
        cases hq : matPure E f.GetReferencedCells s with
        | mk o s1 =>
          rw [hq] at h
          cases o with
          | error e => simpa [refsOf, Impl.GetReferencedCells] using h
          | ok u => simpa [refsOf, Impl.GetReferencedCells] using h
    · rw [if_neg hc] at h
      simp [refsOf, Impl.GetReferencedCells] at h

theorem setPure_no_parse (E : Env) (s : Sheet) (text : String)
    (h : ∀ rest f, text.data = '=' :: rest → ParseFormula E (String.mk rest) ≠ some f) :
    (setPure E s text).2.2 = s := by
  unfold setPure
  cases ht : text.data with
  | nil => rfl
  | cons ch rest =>
    simp only []
    by_cases hc : ch = '=' ∧ rest ≠ []
    · rw [if_pos hc]
      cases hp : ParseFormula E (String.mk rest) with
      | none => rfl
      | some f => exact absurd hp (h rest f (by rw [ht, hc.1]))
    · rw [if_neg hc]

/-- A `SetCell` call that throws leaves the sheet as it was or as the
materialisation loop left it. -/
theorem SetCell_error_sheet (E : Env) (fuel : Nat) (s : Sheet) (pos : Position) (text : String)
    (e : Failure) (s1 : Sheet) (h : Sheet.SetCell E fuel s pos text = some (.error e, s1)) :
    s1 = s ∨ s1 = (setPure E s text).2.2 := by
  rcases SetCell_inv E fuel s pos text _ h with ⟨_, hq⟩ | ⟨_, ⟨e2, _, hq⟩ | ⟨_, n, chk, _, hq⟩⟩
  · left; exact (Prod.mk.inj hq).2
  · right; exact (Prod.mk.inj hq).2
  · right
    cases chk with
    | error e3 => exact (Prod.mk.inj hq).2
    | ok b =>
      cases b with
      | true => exact (Prod.mk.inj hq).2
      | false => simp [commit] at hq

theorem SetCell_error_frame (E : Env) (fuel : Nat) (s : Sheet) (pos : Position) (text : String)
    (e : Failure) (s1 : Sheet) (h : Sheet.SetCell E fuel s pos text = some (.error e, s1)) :
    (∀ p c, s.find p = some c → s1.find p = some c) ∧
    (∀ p c, s.find p = none → s1.find p = some c →
      c = Cell.emptyCell ∧ ∃ rest f, text.data = '=' :: rest ∧
        ParseFormula E (String.mk rest) = some f ∧ p ∈ f.GetReferencedCells) := by
  rcases SetCell_error_sheet E fuel s pos text e s1 h with rfl | rfl
  · exact ⟨fun p c hc => hc, fun p c hn hc => by rw [hn] at hc; cases hc⟩
  · constructor
    · intro p c hc
      rcases setPure_find E s text p with h1 | ⟨h1, _, _, _⟩
      · rw [h1]; exact hc
      · rw [h1] at hc; cases hc
    · intro p c hn hc
      rcases setPure_find E s text p with h1 | ⟨_, h2, h3, _⟩
      · rw [h1, hn] at hc; cases hc
      · rw [h2] at hc
        exact ⟨(Option.some.inj hc).symm, setPure_refs_parse E s text p h3⟩

theorem reachable_sheetA1B1 : Reachable demoEnv sheetA1B1 :=
  @Reachable.setCell demoEnv Sheet.empty sheetA1B1 3 A1 "=B1" (.ok ()) Reachable.empty rfl

/-! ## Claims -/

/-- C1 (evaluated on the code): after `SetCell(A1, "5")`, `SetCell(B1, "=A1+1")`,
`GetValue(B1)` and `SetCell(A1, "10")`, the next `GetValue(B1)` hands back the
memoised `Number 6`, while evaluating the current contents without any cache
gives `Number 11`. -/
theorem stale_value_after_set :
    (runCalls demoEnv 4
        [.SetCell A1 "5", .SetCell B1 "=A1+1", .GetValue B1, .SetCell A1 "10", .GetValue B1]
        Sheet.empty).map Prod.fst
      = some [.returned, .returned, .value (.Number 6), .returned, .value (.Number 6)] ∧
    (match runCalls demoEnv 4
        [.SetCell A1 "5", .SetCell B1 "=A1+1", .GetValue B1, .SetCell A1 "10"] Sheet.empty with
      | some (_, s) => freshValue demoEnv 4 s B1
      | none => none) = some (.ok (.Number 11)) :=
  ⟨by decide, rfl⟩

/-- C2: in every sheet state reached from the empty sheet by `SetCell` and
`ClearCell` calls, successful or not, no position reaches itself along the edges
"the cell stored at X references Y". -/
theorem acyclic_in_every_reachable_state (E : Env) (s : Sheet) (h : Reachable E s) :
    ∀ x, ¬ Relation.TransGen (Edge s) x x :=
  (reachable_invariant E s h).2

/-- The sheet after `SetCell(A1, "=B1")` is reachable, and A1 does not reach itself. -/
theorem acyclic_in_every_reachable_state_witness :
    Reachable demoEnv sheetA1B1 ∧ ¬ Relation.TransGen (Edge sheetA1B1) A1 A1 :=
  ⟨reachable_sheetA1B1,
    acyclic_in_every_reachable_state demoEnv sheetA1B1 reachable_sheetA1B1 A1⟩

/-- C3: on a well-formed acyclic sheet, for a valid `pos` and a formula text that
parses with valid references, `SetCell(pos, text)` returns once the budget covers
the stored cells; it throws `CircularDependency` exactly when `pos` is one of the
candidate's references or is reached from one of them through the stored reference
lists, and otherwise it succeeds. -/
theorem setCell_cycle_iff_reachable (E : Env) (s : Sheet) (pos : Position) (text : String)
    (rest : List Char) (f : Formula) (fuel : Nat)
    (hwf : WellFormed E s) (hac : Acyclic s) (hpos : E.IsValid pos = true)
    (ht : text.data = '=' :: rest) (hr : rest ≠ [])
    (hp : ParseFormula E (String.mk rest) = some f)
    (hrefs : ∀ r ∈ f.GetReferencedCells, E.IsValid r = true)
    (hfuel : s.data_.length + f.GetReferencedCells.length + 3 ≤ fuel) :
    ∃ r s1, Sheet.SetCell E fuel s pos text = some (r, s1) ∧
      (r = .error Failure.CircularDependency ↔ ReachableFrom s f.GetReferencedCells pos) ∧
      (¬ ReachableFrom s f.GetReferencedCells pos → r = .ok ()) := by
  obtain ⟨n, rfl⟩ : ∃ n, fuel = n + 3 := ⟨fuel - 3, by omega⟩
  have hsp := setPure_formula E s text rest f ht hr hp
  have hm := matPure_valid E f.GetReferencedCells s hrefs
  have hlen := matPure_length E f.GetReferencedCells s
  cases hq : matPure E f.GetReferencedCells s with
  | mk o s1 =>
    rw [hq] at hm hlen hsp
    simp only [] at hm hlen
    subst hm
    simp only [] at hsp
    have hwf1 : WellFormed E s1 := by
      have := wf_setPure E s text hwf; rw [hsp] at this; exact this
    have hac1 : Acyclic s1 := by
      have := acyclic_setPure E s text hac; rw [hsp] at this; exact this
    have hreach : ReachableFrom s1 f.GetReferencedCells pos
        ↔ ReachableFrom s f.GetReferencedCells pos := by
      have := reach_setPure E s text f.GetReferencedCells pos; rw [hsp] at this; exact this
    obtain ⟨b, hb, hb2⟩ := check_candidate E s1 hwf1 hac1
      { impl_ := some (Impl.FormulaImpl f),
        cache_ := { val_ := Value.Text "", modification_flag_ := true } }
      f.GetReferencedCells rfl hrefs pos (n + 2) (by omega)
    have hrun := SetCell_run_ok E n s pos text hpos (by rw [hsp]) (.ok b) (by rw [hsp]; exact hb)
    rw [hsp] at hrun
    simp only [] at hrun
    rw [hreach] at hb2
    cases b with
    | true =>
      refine ⟨_, _, hrun, ?_, ?_⟩
      · exact ⟨fun _ => hb2.mp rfl, fun _ => rfl⟩
      · intro hno; exact absurd (hb2.mp rfl) hno
    | false =>
      refine ⟨_, _, hrun, ?_, ?_⟩
      · constructor
        · intro h; cases h
        · intro h; have := hb2.mpr h; cases this
      · intro _; rfl

/-- The mutual cycle of the specification: `SetCell(A1, "=B1")` succeeds on the empty
sheet and `SetCell(B1, "=A1")` then throws `CircularDependency`. -/
theorem setCell_cycle_iff_reachable_witness :
    Sheet.SetCell demoEnv 6 Sheet.empty A1 "=B1" = some (.ok (), sheetA1B1) ∧
    Sheet.SetCell demoEnv 6 sheetA1B1 B1 "=A1"
      = some (.error Failure.CircularDependency, sheetA1B1) ∧
    ∃ r s1, Sheet.SetCell demoEnv 6 sheetA1B1 B1 "=A1" = some (r, s1) ∧
      (r = .error Failure.CircularDependency ↔ ReachableFrom sheetA1B1 [A1] B1) ∧
      (¬ ReachableFrom sheetA1B1 [A1] B1 → r = .ok ()) :=
  ⟨rfl, rfl,
    setCell_cycle_iff_reachable demoEnv sheetA1B1 B1 "=A1" ['A', '1']
      (Formula.new (astRef "A1" A1)) 6
      (reachable_invariant demoEnv sheetA1B1 reachable_sheetA1B1).1
      (reachable_invariant demoEnv sheetA1B1 reachable_sheetA1B1).2
      rfl rfl (by decide) rfl (by decide) (by decide)⟩

/-- C4 (as stated, refuted): on the empty sheet `SetCell(A1, "=A1")` throws
`CircularDependency`, A1 was absent before the call and holds a cell after it. -/
theorem self_reference_leaves_new_cell :
    Sheet.empty.find A1 = none ∧
    ∃ s1, Sheet.SetCell demoEnv 3 Sheet.empty A1 "=A1"
        = some (.error Failure.CircularDependency, s1) ∧
      (s1.find A1).map Cell.GetText = some "" :=
  ⟨rfl, _, rfl, rfl⟩

/-- C4 (amended): for a valid `p` and any sheet, setting at `p` a formula whose only
reference is `p` throws `CircularDependency`; a cell stored at `p` before the call
is still there unchanged, an absent `p` now holds the materialised empty cell, and
every other position holds what it held. -/
theorem self_reference_rejected (E : Env) (s : Sheet) (p : Position) (text : String)
    (rest : List Char) (ast : FormulaAST) (fuel : Nat)
    (hv : E.IsValid p = true) (ht : text.data = '=' :: rest) (hr : rest ≠ [])
    (hp : E.ParseFormulaAST (String.mk rest) = some ast) (hcells : ast.GetCells = [p]) :
    ∃ s1, Sheet.SetCell E (fuel + 3) s p text = some (.error Failure.CircularDependency, s1) ∧
      (∀ c, s.find p = some c → s1.find p = some c) ∧
      (s.find p = none → s1.find p = some Cell.emptyCell) ∧
      (∀ q, q ≠ p → s1.find q = s.find q) := by
  have hpf : ParseFormula E (String.mk rest) = some (Formula.new ast) := by
    simp [ParseFormula, hp]
  have hrefs : (Formula.new ast).GetReferencedCells = [p] := by
    simp [Formula.new, Formula.GetReferencedCells, hcells, unique, sort]
  have hsp := setPure_formula E s text rest (Formula.new ast) ht hr hpf
  rw [hrefs] at hsp
  have hchk : ∀ (t : Sheet) (cache : CellCache),
      t.CheckCircularDependencies E (fuel + 2)
        (some { impl_ := some (Impl.FormulaImpl (Formula.new ast)), cache_ := cache }) p
        = some (.ok true) := by
    intro t cache
    rw [Sheet.CheckCircularDependencies]
    simp [Cell.GetReferencedCells, Impl.GetReferencedCells, hrefs, checkLoop]
  cases hf : s.find p with
  | some c =>
    have hm : matPure E [p] s = (.ok (), s) := by simp [matPure, hv, hf]
    rw [hm] at hsp
    simp only [] at hsp
    have hrun := SetCell_run_ok E fuel s p text hv (by rw [hsp]) (.ok true)
      (by rw [hsp]; exact hchk _ _)
    rw [hsp] at hrun
    refine ⟨s, hrun, ?_, ?_, ?_⟩
    · intro c2 h2; rw [hf]; exact h2
    · intro h2; cases h2
    · intro q _; rfl
  | none =>
    have hm : matPure E [p] s = (.ok (), s.assign p Cell.emptyCell) := by
      simp [matPure, hv, hf]
    rw [hm] at hsp
    simp only [] at hsp
    have hrun := SetCell_run_ok E fuel s p text hv (by rw [hsp]) (.ok true)
      (by rw [hsp]; exact hchk _ _)
    rw [hsp] at hrun
    refine ⟨s.assign p Cell.emptyCell, hrun, ?_, ?_, ?_⟩
    · intro c2 h2; cases h2
    · intro _; rw [find_assign, if_pos rfl]
    · intro q hq; rw [find_assign, if_neg hq]

/-- Setting `=A1` at A1 on the sheet that already stores a formula at A1. -/
theorem self_reference_rejected_witness :
    ∃ s1, Sheet.SetCell demoEnv 3 sheetA1B1 A1 "=A1"
        = some (.error Failure.CircularDependency, s1) ∧
      (∀ c, sheetA1B1.find A1 = some c → s1.find A1 = some c) ∧
      (sheetA1B1.find A1 = none → s1.find A1 = some Cell.emptyCell) ∧
      (∀ q, q ≠ A1 → s1.find q = sheetA1B1.find q) :=
  self_reference_rejected demoEnv sheetA1B1 A1 "=A1" ['A', '1'] (astRef "A1" A1) 0
    rfl rfl (by decide) rfl rfl

/-- C5: when `SetCell(pos, text)` throws `CircularDependency`, every cell stored
before the call is still stored unchanged (same text, same reference list), and
every newly present position holds the empty cell and is a reference of the
parsed candidate formula. -/
theorem circular_failure_frame (E : Env) (fuel : Nat) (s : Sheet) (pos : Position)
    (text : String) (s1 : Sheet)
    (h : Sheet.SetCell E fuel s pos text = some (.error Failure.CircularDependency, s1)) :
    (∀ p c, s.find p = some c →
      s1.find p = some c ∧ (s1.find p).map Cell.GetText = some c.GetText ∧
        refsOf (s1.find p) = refsOf (some c)) ∧
    (∀ p c, s.find p = none → s1.find p = some c →
      c.impl_ = some Impl.EmptyImpl ∧ c.GetText = "" ∧
      ∃ rest f, text.data = '=' :: rest ∧ ParseFormula E (String.mk rest) = some f ∧
        p ∈ f.GetReferencedCells) := by
  obtain ⟨h1, h2⟩ := SetCell_error_frame E fuel s pos text _ s1 h
  constructor
  · intro p c hc
    have := h1 p c hc
    exact ⟨this, by rw [this]; rfl, by rw [this]⟩
  · intro p c hn hc
    obtain ⟨he, hx⟩ := h2 p c hn hc
    subst he
    exact ⟨rfl, rfl, hx⟩

/-- Setting `=A1` at A1 on the empty sheet: the call throws and only the materialised
empty cell at A1 is new. -/
theorem circular_failure_frame_witness :
    Sheet.SetCell demoEnv 3 Sheet.empty A1 "=A1"
      = some (.error Failure.CircularDependency, Sheet.empty.assign A1 Cell.emptyCell) ∧
    (∀ p c, Sheet.empty.find p = some c →
      (Sheet.empty.assign A1 Cell.emptyCell).find p = some c ∧
        ((Sheet.empty.assign A1 Cell.emptyCell).find p).map Cell.GetText = some c.GetText ∧
        refsOf ((Sheet.empty.assign A1 Cell.emptyCell).find p) = refsOf (some c)) ∧
    (∀ p c, Sheet.empty.find p = none →
      (Sheet.empty.assign A1 Cell.emptyCell).find p = some c →
      c.impl_ = some Impl.EmptyImpl ∧ c.GetText = "" ∧
      ∃ rest f, "=A1".data = '=' :: rest ∧ ParseFormula demoEnv (String.mk rest) = some f ∧
        p ∈ f.GetReferencedCells) :=
  ⟨rfl, circular_failure_frame demoEnv 3 Sheet.empty A1 "=A1" _ rfl⟩

theorem unique_mem : ∀ (l : List Position) (p : Position), p ∈ unique l → p ∈ l
  | [], p, h => by simp [unique] at h
  | [a], p, h => by simpa [unique] using h
  | a :: b :: rest, p, h => by
    unfold unique at h
    by_cases hab : a = b
    · rw [if_pos hab] at h
      exact List.mem_cons_of_mem _ (unique_mem (b :: rest) p h)
    · rw [if_neg hab] at h
      rcases List.mem_cons.mp h with h1 | h1
      · rw [h1]; exact List.mem_cons_self _ _
      · exact List.mem_cons_of_mem _ (unique_mem (b :: rest) p h1)

theorem sort_mem (l : List Position) (p : Position) (h : p ∈ sort l) : p ∈ l :=
  (List.perm_insertionSort Position.le l).mem_iff.mp h

/-- With an engine that lists valid positions only, every reference of a parsed
formula wrapper is valid. -/
theorem parsed_refs_valid (E : Env) (hE : ListsValidReferences E) (src : String) (f : Formula)
    (hp : ParseFormula E src = some f) : ∀ p ∈ f.GetReferencedCells, E.IsValid p = true := by
  unfold ParseFormula at hp
  cases ha : E.ParseFormulaAST src with
  | none => simp [ha] at hp
  | some ast =>
    simp only [ha, Option.some.injEq] at hp
    subst hp
    intro p hmem
    exact hE src ast ha p (unique_mem _ p (sort_mem _ p hmem))

/-- The cycle check never throws a `FormulaException`: what escapes it is the
`InvalidPosition` of `GetCell` or the dereference of a null content pointer. -/
theorem check_error_kind (E : Env) (s : Sheet) (head : Position) :
    ∀ (fuel : Nat) (co : Option Cell) (e : Failure),
      s.CheckCircularDependencies E fuel co head = some (.error e) →
      e = Failure.InvalidPosition ∨ e = Failure.NullDereference := by
  intro fuel
  induction fuel with
  | zero => intro co e h; simp [Sheet.CheckCircularDependencies] at h
  | succ n ih =>
    intro co e h
    cases co with
    | none => simp [Sheet.CheckCircularDependencies] at h
    | some cell =>
      rw [Sheet.CheckCircularDependencies] at h
      cases hr : cell.GetReferencedCells with
      | error e2 =>
        simp only [hr, Option.some.injEq, Except.error.injEq] at h
        subst h
        obtain ⟨impl, cache⟩ := cell
        cases impl with
        | none => simp [Cell.GetReferencedCells] at hr; right; exact hr.symm
        | some i => simp [Cell.GetReferencedCells] at hr
      | ok refs =>
        simp only [hr] at h
        obtain ⟨x, _, hx⟩ := checkLoop_error _ head refs e false h
        simp only [Sheet.GetCell] at hx
        by_cases hv : E.IsValid x = true
        · simp only [hv, if_true] at hx
          exact ih _ e hx
        · simp only [hv] at hx
          simp only [Bool.false_eq_true, if_false, Option.some.injEq, Except.error.injEq] at hx
          left; exact hx.symm

theorem setPure_error_sheet (E : Env) (hE : ListsValidReferences E) (s : Sheet) (text : String)
    (e : Failure) (h : (setPure E s text).1 = .error e) : (setPure E s text).2.2 = s := by
  unfold setPure at h ⊢
  cases ht : text.data with
  | nil => rfl
  | cons ch rest =>
    simp only [ht] at h ⊢
    by_cases hc : ch = '=' ∧ rest ≠ []
    · rw [if_pos hc] at h ⊢
      cases hp : ParseFormula E (String.mk rest) with
      | none => rfl
      | some f =>
        simp only [hp] at h ⊢
        have hm := matPure_valid E f.GetReferencedCells s
          (parsed_refs_valid E hE (String.mk rest) f hp)
        cases hq : matPure E f.GetReferencedCells s with
        | mk o s1 =>
          rw [hq] at hm h
          simp only at hm
          subst hm
          simp at h
    · rw [if_neg hc]

/-- C6: with an engine that lists valid positions only, a `SetCell(pos, text)` that
throws `FormulaSyntaxError` leaves the sheet exactly as it was (same present
positions, same cells, same texts), and a `Cell::Set` that throws
`FormulaSyntaxError` leaves the cell's content and the owning sheet untouched. -/
theorem syntax_failure_is_atomic (E : Env) (hE : ListsValidReferences E) (fuel : Nat)
    (s : Sheet) (pos : Position) (text : String) (s1 : Sheet)
    (h : Sheet.SetCell E fuel s pos text = some (.error Failure.FormulaSyntaxError, s1)) :
    s1 = s ∧ (∀ p, s1.find p = s.find p) ∧
    (∀ p, (s1.find p).map Cell.GetText = (s.find p).map Cell.GetText) ∧
    (∀ (c c1 : Cell) (t t1 : Sheet) (n : Nat),
      Cell.Set E (Sheet.SetCell E n) c t text
        = some (.error Failure.FormulaSyntaxError, c1, t1) → c1 = c ∧ t1 = t) := by
  have hs : s1 = s := by
    rcases SetCell_inv E fuel s pos text _ h with
      ⟨_, hq⟩ | ⟨_, ⟨e, he, hq⟩ | ⟨_, n, chk, hchk, hq⟩⟩
    · exact (Prod.mk.inj hq).2
    · rw [(Prod.mk.inj hq).2]
      exact setPure_error_sheet E hE s text e he
    · cases chk with
      | error e =>
        have he : e = Failure.FormulaSyntaxError := by
          have := (Prod.mk.inj hq).1
          simp only [Except.error.injEq] at this
          exact this.symm
        rcases check_error_kind E _ pos n _ e hchk with h1 | h1
        · rw [h1] at he; cases he
        · rw [h1] at he; cases he
      | ok b =>
        cases b with
        | true => simp [commit] at hq
        | false => simp [commit] at hq
  subst hs
  refine ⟨rfl, fun _ => rfl, fun _ => rfl, ?_⟩
  intro c c1 t t1 n hset
  unfold Cell.Set at hset
  cases ht : text.data with
  | nil => simp [ht] at hset
  | cons ch rest =>
    simp only [ht] at hset
    by_cases hc : ch = '=' ∧ rest ≠ []
    · rw [if_pos hc] at hset
      cases hp : ParseFormula E (String.mk rest) with
      | none =>
        simp only [hp, Option.some.injEq, Prod.mk.injEq, true_and] at hset
        exact ⟨hset.1.symm, hset.2.symm⟩
      | some f =>
        simp only [hp] at hset
        cases hm : materialize E (Sheet.SetCell E n) f.GetReferencedCells t with
        | none => simp [hm] at hset
        | some q =>
          have hq := materialize_inv E n _ t q hm
          have hok := matPure_valid E f.GetReferencedCells t
            (parsed_refs_valid E hE (String.mk rest) f hp)
          rw [← hq] at hok
          obtain ⟨o, s2⟩ := q
          simp only at hok
          subst hok
          simp [hm] at hset
    · rw [if_neg hc] at hset
      simp at hset

theorem demoEnv_lists_valid : ListsValidReferences demoEnv := by
  intro src ast h p hp
  simp only [demoEnv] at h
  split_ifs at h <;> simp only [Option.some.injEq] at h <;> subst h
  · simp only [astRef, List.mem_singleton] at hp; subst hp; rfl
  · simp only [astRef, List.mem_singleton] at hp; subst hp; rfl
  · simp only [astRefPlus, List.mem_singleton] at hp; subst hp; rfl
  · simp only [astSum, List.mem_cons, List.mem_singleton, List.not_mem_nil, or_false] at hp
    rcases hp with rfl | rfl <;> rfl

/-- The text `=A1+` does not parse in the sample engine: the call throws
`FormulaSyntaxError` and the sheet holding A1 and B1 is what it was. -/
theorem syntax_failure_is_atomic_witness :
    Sheet.SetCell demoEnv 3 sheetA1B1 C1 "=A1+"
      = some (.error Failure.FormulaSyntaxError, sheetA1B1) ∧
    Cell.Set demoEnv (Sheet.SetCell demoEnv 2) (textCell "old") sheetA1B1 "=A1+"
      = some (.error Failure.FormulaSyntaxError, textCell "old", sheetA1B1) ∧
    (sheetA1B1 = sheetA1B1 ∧ (∀ p, sheetA1B1.find p = sheetA1B1.find p) ∧
      (∀ p, (sheetA1B1.find p).map Cell.GetText = (sheetA1B1.find p).map Cell.GetText) ∧
      (∀ (c c1 : Cell) (t t1 : Sheet) (n : Nat),
        Cell.Set demoEnv (Sheet.SetCell demoEnv n) c t "=A1+"
          = some (.error Failure.FormulaSyntaxError, c1, t1) → c1 = c ∧ t1 = t)) :=
  ⟨rfl, rfl,
    syntax_failure_is_atomic demoEnv demoEnv_lists_valid 3 sheetA1B1 C1 "=A1+" sheetA1B1 rfl⟩

/-- C7: when `SetCell(pos, text)` succeeds for a formula text, every position the
new formula references holds a cell afterwards; a referenced position that had no
cell holds the empty cell (text "", no references); and every cell stored before
at a position other than `pos` is unchanged. -/
theorem success_materializes_references (E : Env) (fuel : Nat) (s : Sheet) (pos : Position)
    (text : String) (rest : List Char) (f : Formula) (s1 : Sheet)
    (ht : text.data = '=' :: rest) (hr : rest ≠ [])
    (hp : ParseFormula E (String.mk rest) = some f)
    (h : Sheet.SetCell E fuel s pos text = some (.ok (), s1)) :
    (∀ r ∈ f.GetReferencedCells, ∃ c, s1.find r = some c) ∧
    (∀ r ∈ f.GetReferencedCells, s.find r = none →
      ∃ c, s1.find r = some c ∧ c.impl_ = some Impl.EmptyImpl ∧ c.GetText = "" ∧
        c.GetReferencedCells = .ok []) ∧
    (∀ p c, p ≠ pos → s.find p = some c → s1.find p = some c) := by
  rcases SetCell_inv E fuel s pos text _ h with ⟨_, hq⟩ | ⟨_, ⟨e, _, hq⟩ | ⟨hok, n, chk, hchk, hq⟩⟩
  · cases hq
  · cases hq
  · have hsp := setPure_formula E s text rest f ht hr hp
    cases hm : matPure E f.GetReferencedCells s with
    | mk o s2 =>
      rw [hm] at hsp
      cases o with
      | error e => rw [hsp] at hok; cases hok
      | ok u =>
        simp only [] at hsp
        rw [hsp] at hchk hq
        simp only [] at hchk hq
        cases chk with
        | error e => simp [commit] at hq
        | ok b =>
          cases b with
          | true => simp [commit] at hq
          | false =>
            simp only [commit, Prod.mk.injEq, true_and] at hq
            subst hq
            have hnot : ¬ ReachableFrom s2 f.GetReferencedCells pos := by
              intro hreach
              have := (check_sound E s2 pos n _ false hchk).mpr hreach
              cases this
            have hne : ∀ r ∈ f.GetReferencedCells, r ≠ pos := by
              intro r hr2 heq
              exact hnot ⟨r, hr2, by rw [heq]⟩
            have hmat := matPure_ok E f.GetReferencedCells s (by rw [hm])
            rw [hm] at hmat
            simp only [] at hmat
            have hfind := matPure_find E f.GetReferencedCells s
            rw [hm] at hfind
            simp only [] at hfind
            refine ⟨?_, ?_, ?_⟩
            · intro r hr2
              rw [find_assign, if_neg (hne r hr2)]
              exact (hmat r hr2).2
            · intro r hr2 hn
              rw [find_assign, if_neg (hne r hr2)]
              rcases hfind r with h3 | ⟨_, h4, _, _⟩
              · obtain ⟨c, hc⟩ := (hmat r hr2).2
                rw [h3, hn] at hc; cases hc
              · exact ⟨Cell.emptyCell, h4, rfl, rfl, rfl⟩
            · intro p c hne2 hc
              rw [find_assign, if_neg hne2]
              rcases hfind p with h3 | ⟨h3, _, _, _⟩
              · rw [h3]; exact hc
              · rw [h3] at hc; cases hc

/-- Setting `=B1` at A1 on the empty sheet materialises the empty cell at B1. -/
theorem success_materializes_references_witness :
    Sheet.SetCell demoEnv 3 Sheet.empty A1 "=B1" = some (.ok (), sheetA1B1) ∧
    (∀ r ∈ (Formula.new (astRef "B1" B1)).GetReferencedCells, ∃ c, sheetA1B1.find r = some c) ∧
    (∀ r ∈ (Formula.new (astRef "B1" B1)).GetReferencedCells, Sheet.empty.find r = none →
      ∃ c, sheetA1B1.find r = some c ∧ c.impl_ = some Impl.EmptyImpl ∧ c.GetText = "" ∧
        c.GetReferencedCells = .ok []) ∧
    (∀ p c, p ≠ A1 → Sheet.empty.find p = some c → sheetA1B1.find p = some c) :=
  ⟨rfl, success_materializes_references demoEnv 3 Sheet.empty A1 "=B1" ['B', '1']
    (Formula.new (astRef "B1" B1)) sheetA1B1 rfl (by decide) rfl rfl⟩

/-- C8 (evaluated on the code): for the engine list `[A1, B1, A1]` the wrapper's
reference list is `[A1, A1, B1]`: sorted, but A1 is kept twice, because `unique()`
ran before `sort()` and dropped adjacent repetitions only. -/
theorem references_keep_duplicate :
    (Formula.new { GetCells := [A1, B1, A1], PrintFormula := "A1+B1+A1",
                   Execute := .ret (.ok 0) }).GetReferencedCells = [A1, A1, B1] := by
  decide

/-- C9 (evaluated on the code): `SetCell(A1, "=B1")` then `ClearCell(B1)` reaches a
sheet in which the formula at A1 references B1 and B1 has no cell; the first
`GetValue` of A1 memoises a value and the second one dereferences the null pointer
`GetCell(B1)` returns. -/
theorem cleared_reference_is_dereferenced :
    Reachable demoEnv (sheetA1B1.ClearCell demoEnv B1).2 ∧
    Edge (sheetA1B1.ClearCell demoEnv B1).2 A1 B1 ∧
    (sheetA1B1.ClearCell demoEnv B1).2.find B1 = none ∧
    (runCalls demoEnv 4
        [.SetCell A1 "=B1", .ClearCell B1, .GetValue A1, .GetValue A1] Sheet.empty).map Prod.fst
      = some [.returned, .returned, .value (.Number 0), .threw Failure.NullDereference] := by
  refine ⟨Reachable.clearCell B1 reachable_sheetA1B1, ?_, rfl, by decide⟩
  show B1 ∈ refsOf ((sheetA1B1.ClearCell demoEnv B1).2.find A1)
  decide

/-- C10 (evaluated on the code): after `Clear()` the text query returns "", while
`GetReferencedCells()` goes through the null content pointer, and so does
`GetValue()`, which asks for the references first. -/
theorem cleared_cell_queries (E : Env) (c : Cell) (p : Position) (fuel : Nat) :
    c.Clear.GetText = "" ∧
    c.Clear.GetReferencedCells = .error Failure.NullDereference ∧
    GetValue E (fuel + 1) { data_ := [(p, c.Clear)] } p
      = some (.error Failure.NullDereference, { data_ := [(p, c.Clear)] }) := by
  refine ⟨rfl, rfl, ?_⟩
  simp [GetValue, Sheet.find, lookup, Cell.Clear, Cell.GetReferencedCells]

/-! ## Printable size -/

/-- The loop of `GetCorners` ends with the larger of the start value and the largest
key, in each coordinate. -/
theorem foldl_cornerStep (l : List (Position × Cell)) :
    ∀ r0 : Position,
      (r0.row ≤ (l.foldl cornerStep r0).row ∧
        (∀ e ∈ l, e.1.row ≤ (l.foldl cornerStep r0).row) ∧
        ((l.foldl cornerStep r0).row = r0.row ∨ ∃ e ∈ l, (l.foldl cornerStep r0).row = e.1.row)) ∧
      (r0.col ≤ (l.foldl cornerStep r0).col ∧
        (∀ e ∈ l, e.1.col ≤ (l.foldl cornerStep r0).col) ∧
        ((l.foldl cornerStep r0).col = r0.col ∨ ∃ e ∈ l, (l.foldl cornerStep r0).col = e.1.col)) := by
  induction l with
  | nil => intro r0; simp
  | cons x rest ih =>
    intro r0
    obtain ⟨⟨h1, h2, h3⟩, ⟨h4, h5, h6⟩⟩ := ih (cornerStep r0 x)
    simp only [List.foldl_cons]
    have hr : (cornerStep r0 x).row = if r0.row < x.1.row then x.1.row else r0.row := rfl
    have hc : (cornerStep r0 x).col = if r0.col < x.1.col then x.1.col else r0.col := rfl
    refine ⟨⟨?_, ?_, ?_⟩, ⟨?_, ?_, ?_⟩⟩
    · rw [hr] at h1; split_ifs at h1 <;> omega
    · intro e he
      rcases List.mem_cons.mp he with rfl | he2
      · rw [hr] at h1; split_ifs at h1 <;> omega
      · exact h2 e he2
    · rcases h3 with h3 | ⟨e, he, h3⟩
      · rw [hr] at h3
        split_ifs at h3
        · right; exact ⟨x, List.mem_cons_self _ _, h3⟩
        · left; exact h3
      · right; exact ⟨e, List.mem_cons_of_mem _ he, h3⟩
    · rw [hc] at h4; split_ifs at h4 <;> omega
    · intro e he
      rcases List.mem_cons.mp he with rfl | he2
      · rw [hc] at h4; split_ifs at h4 <;> omega
      · exact h5 e he2
    · rcases h6 with h6 | ⟨e, he, h6⟩
      · rw [hc] at h6
        split_ifs at h6
        · right; exact ⟨x, List.mem_cons_self _ _, h6⟩
        · left; exact h6
      · right; exact ⟨e, List.mem_cons_of_mem _ he, h6⟩

/-- The right corner is the coordinate-wise maximum of the stored keys, when keys
are zero-based and the sentinel lies outside the grid. -/
theorem corners_max (NONE : Position) (s : Sheet) (hNONE : NONE.row < 0 ∧ NONE.col < 0)
    (hkeys : ∀ e ∈ s.data_, 0 ≤ e.1.row ∧ 0 ≤ e.1.col) (hne : s.data_ ≠ []) :
    (s.GetCorners NONE).1 = ⟨0, 0⟩ ∧
    ((∃ e ∈ s.data_, (s.GetCorners NONE).2.row = e.1.row) ∧
      (∀ e ∈ s.data_, e.1.row ≤ (s.GetCorners NONE).2.row)) ∧
    ((∃ e ∈ s.data_, (s.GetCorners NONE).2.col = e.1.col) ∧
      (∀ e ∈ s.data_, e.1.col ≤ (s.GetCorners NONE).2.col)) := by
  obtain ⟨l⟩ := s
  simp only at hkeys hne ⊢
  match l, hkeys, hne with
  | [], _, hne => exact absurd rfl hne
  | [e], _, _ => simp [Sheet.GetCorners]
  | e1 :: e2 :: rest, hkeys, _ =>
    obtain ⟨⟨_, h2, h3⟩, ⟨_, h5, h6⟩⟩ := foldl_cornerStep (e1 :: e2 :: rest) NONE
    have hk1 := hkeys e1 (List.mem_cons_self _ _)
    refine ⟨rfl, ⟨?_, ?_⟩, ⟨?_, ?_⟩⟩
    · rcases h3 with h3 | h3
      · have := h2 e1 (List.mem_cons_self _ _)
        exfalso; omega
      · exact h3
    · exact h2
    · rcases h6 with h6 | h6
      · have := h5 e1 (List.mem_cons_self _ _)
        exfalso; omega
      · exact h6
    · exact h5

/-- C11: `GetPrintableSize` is (0,0) for a sheet with no stored cells; for a sheet
with stored cells (one or several, empty cells included) its rows are the largest
stored row plus one and its columns the largest stored column plus one. Stored
positions are zero-based and the sentinel `NONE` lies outside the grid. -/
theorem printable_size_is_max (NONE : Position) (s : Sheet)
    (hNONE : NONE.row < 0 ∧ NONE.col < 0)
    (hkeys : ∀ e ∈ s.data_, 0 ≤ e.1.row ∧ 0 ≤ e.1.col) :
    (s.data_ = [] → s.GetPrintableSize NONE = ⟨0, 0⟩) ∧
    (s.data_ ≠ [] →
      ((∃ e ∈ s.data_, (s.GetPrintableSize NONE).rows = e.1.row + 1) ∧
        (∀ e ∈ s.data_, e.1.row + 1 ≤ (s.GetPrintableSize NONE).rows)) ∧
      ((∃ e ∈ s.data_, (s.GetPrintableSize NONE).cols = e.1.col + 1) ∧
        (∀ e ∈ s.data_, e.1.col + 1 ≤ (s.GetPrintableSize NONE).cols))) := by
  constructor
  · intro h; simp [Sheet.GetPrintableSize, h]
  · intro hne
    obtain ⟨h0, ⟨⟨e, he, hr⟩, hr2⟩, ⟨⟨e2, he2, hc⟩, hc2⟩⟩ := corners_max NONE s hNONE hkeys hne
    have hemp : s.data_.isEmpty = false := by
      cases hd : s.data_ with
      | nil => exact absurd hd hne
      | cons _ _ => rfl
    simp only [Sheet.GetPrintableSize, hemp, Bool.false_eq_true, if_false, h0]
    refine ⟨⟨⟨e, he, ?_⟩, ?_⟩, ⟨⟨e2, he2, ?_⟩, ?_⟩⟩
    · rw [hr]; omega
    · intro x hx; have := hr2 x hx; omega
    · rw [hc]; omega
    · intro x hx; have := hc2 x hx; omega

/-- The specification's examples: a single cell at row 3, column 2 gives (4,3); cells
at (0,0) and (5,5) give (6,6); and the theorem at the second sheet. -/
theorem printable_size_is_max_witness :
    Sheet.empty.GetPrintableSize noPosition = ⟨0, 0⟩ ∧
    Sheet.GetPrintableSize noPosition { data_ := [(⟨3, 2⟩, Cell.emptyCell)] } = ⟨4, 3⟩ ∧
    Sheet.GetPrintableSize noPosition
      { data_ := [(⟨5, 5⟩, textCell "x"), (⟨0, 0⟩, Cell.emptyCell)] } = ⟨6, 6⟩ ∧
    ((∃ e ∈ [((⟨5, 5⟩ : Position), textCell "x"), (⟨0, 0⟩, Cell.emptyCell)],
        (Sheet.GetPrintableSize noPosition
          { data_ := [(⟨5, 5⟩, textCell "x"), (⟨0, 0⟩, Cell.emptyCell)] }).rows = e.1.row + 1) ∧
      (∀ e ∈ [((⟨5, 5⟩ : Position), textCell "x"), (⟨0, 0⟩, Cell.emptyCell)],
        e.1.row + 1 ≤ (Sheet.GetPrintableSize noPosition
          { data_ := [(⟨5, 5⟩, textCell "x"), (⟨0, 0⟩, Cell.emptyCell)] }).rows)) :=
  ⟨by decide, by decide, by decide,
    ((printable_size_is_max noPosition
      { data_ := [(⟨5, 5⟩, textCell "x"), (⟨0, 0⟩, Cell.emptyCell)] }
      (by decide) (by decide)).2 (by simp)).1⟩

/-- C13: for a valid `p` and any sheet, `SetCell(p, "")` succeeds and leaves at `p` a
cell whose text is "", whose reference list is empty and whose `GetValue()` returns
`Text ""`. -/
theorem set_empty_text_reads_empty (E : Env) (s : Sheet) (p : Position) (fuel : Nat)
    (hv : E.IsValid p = true) :
    ∃ s1 cell, Sheet.SetCell E (fuel + 2) s p "" = some (.ok (), s1) ∧
      s1.find p = some cell ∧ cell.GetText = "" ∧ cell.GetReferencedCells = .ok [] ∧
      ∃ s2, GetValue E (fuel + 1) s1 p = some (.ok (Value.Text ""), s2) := by
  refine ⟨s.assign p Cell.emptyCell, Cell.emptyCell, SetCell_empty_run E fuel s p hv, ?_, rfl, rfl, ?_⟩
  · rw [find_assign, if_pos rfl]
  · have hf : (s.assign p Cell.emptyCell).find p = some Cell.emptyCell := by
      rw [find_assign, if_pos rfl]
    refine ⟨(s.assign p Cell.emptyCell).SetCache p (Value.Text ""), ?_⟩
    rw [GetValue]
    simp only [hf]
    rfl

theorem set_empty_text_reads_empty_witness :
    ∃ s1 cell, Sheet.SetCell demoEnv 2 sheetA1B1 A1 "" = some (.ok (), s1) ∧
      s1.find A1 = some cell ∧ cell.GetText = "" ∧ cell.GetReferencedCells = .ok [] ∧
      ∃ s2, GetValue demoEnv 1 s1 A1 = some (.ok (Value.Text ""), s2) :=
  set_empty_text_reads_empty demoEnv sheetA1B1 A1 0 rfl

/-! ## Text cells, clearing and invalid positions -/

theorem setPure_text (E : Env) (s : Sheet) (text : String) (ch : Char) (rest : List Char)
    (ht : text.data = ch :: rest) (hc : ¬ (ch = '=' ∧ rest ≠ [])) :
    setPure E s text = (.ok (), textCell text, s) := by
  unfold setPure
  simp only [ht]
  rw [if_neg hc]
  rfl

theorem check_textCell (E : Env) (s : Sheet) (fuel : Nat) (text : String) (head : Position) :
    s.CheckCircularDependencies E (fuel + 1) (some (textCell text)) head = some (.ok false) := by
  simp [Sheet.CheckCircularDependencies, Cell.GetReferencedCells, textCell,
    Impl.GetReferencedCells, checkLoop]

theorem lookup_some_mem (p : Position) (l : List (Position × Cell)) (c : Cell)
    (h : lookup p l = some c) : (p, c) ∈ l := by
  induction l with
  | nil => simp [lookup] at h
  | cons e rest ih =>
    unfold lookup at h
    by_cases he : e.1 = p
    · rw [if_pos he] at h
      have : e = (p, c) := by
        obtain ⟨a, b⟩ := e
        simp only at he
        simp only [Option.some.injEq] at h
        rw [he, h]
      rw [this]; exact List.mem_cons_self _ _
    · rw [if_neg he] at h
      exact List.mem_cons_of_mem _ (ih h)

theorem lookup_none (p : Position) (l : List (Position × Cell))
    (h : ∀ c, (p, c) ∉ l) : lookup p l = none := by
  induction l with
  | nil => rfl
  | cons e rest ih =>
    unfold lookup
    by_cases he : e.1 = p
    · exfalso
      apply h e.2
      have : e = (p, e.2) := by rw [← he]
      rw [← this]; exact List.mem_cons_self _ _
    · rw [if_neg he]
      exact ih (fun c hc => h c (List.mem_cons_of_mem _ hc))

theorem filter_absent (p : Position) (l : List (Position × Cell)) (h : lookup p l = none) :
    l.filter (fun e => decide (e.1 ≠ p)) = l := by
  induction l with
  | nil => rfl
  | cons e rest ih =>
    unfold lookup at h
    by_cases he : e.1 = p
    · rw [if_pos he] at h; cases h
    · rw [if_neg he] at h
      have h2 := ih h
      simp only [List.filter_cons, ne_eq, he, not_false_eq_true, decide_True, if_true]
      exact congrArg (List.cons e) h2

/-- C14: for a valid `p` and a non-empty text that is not a formula (it does not
start with `=`, or it is exactly `=`), `SetCell(p, t)` succeeds; afterwards the text
of the cell at `p` is `t` (a leading apostrophe is kept), its reference list is
empty, and `GetValue()` returns `Text` of `t` without its first character when that
character is an apostrophe, and `Text t` otherwise. -/
theorem text_round_trip (E : Env) (s : Sheet) (p : Position) (text : String) (ch : Char)
    (rest : List Char) (fuel : Nat) (hv : E.IsValid p = true)
    (ht : text.data = ch :: rest) (hc : ¬ (ch = '=' ∧ rest ≠ [])) :
    ∃ s1 cell, Sheet.SetCell E (fuel + 3) s p text = some (.ok (), s1) ∧
      s1.find p = some cell ∧ cell.GetText = text ∧ cell.GetReferencedCells = .ok [] ∧
      ∃ s2, GetValue E (fuel + 1) s1 p
        = some (.ok (Value.Text (if ch = Char.ofNat 39 then String.mk rest else text)), s2) := by
  have hsp := setPure_text E s text ch rest ht hc
  have hrun := SetCell_run_ok E fuel s p text hv (by rw [hsp]) (.ok false)
    (by rw [hsp]; exact check_textCell E s (fuel + 1) text p)
  rw [hsp] at hrun
  have hf : (s.assign p (textCell text)).find p = some (textCell text) := by
    rw [find_assign, if_pos rfl]
  refine ⟨s.assign p (textCell text), textCell text, hrun, hf, rfl, rfl, ?_⟩
  by_cases ha : ch = Char.ofNat 39
  · refine ⟨(s.assign p (textCell text)).SetCache p (Value.Text (String.mk rest)), ?_⟩
    rw [GetValue]
    simp only [hf]
    simp [textCell, Cell.GetReferencedCells, CellCache.toBool, Impl.GetValue, ValueVisitor,
      ht, ha]
  · refine ⟨(s.assign p (textCell text)).SetCache p (Value.Text text), ?_⟩
    rw [GetValue]
    simp only [hf]
    simp [textCell, Cell.GetReferencedCells, CellCache.toBool, Impl.GetValue, ValueVisitor,
      ht, ha]

/-- The specification's examples: "hello" reads back as text "hello" and value
`Text "hello"`; an apostrophe followed by 123 keeps its text and has value
`Text "123"`. -/
theorem text_round_trip_witness :
    (∃ s1 cell, Sheet.SetCell demoEnv 3 Sheet.empty A1 "hello" = some (.ok (), s1) ∧
      s1.find A1 = some cell ∧ cell.GetText = "hello" ∧ cell.GetReferencedCells = .ok [] ∧
      ∃ s2, GetValue demoEnv 1 s1 A1
        = some (.ok (Value.Text (if 'h' = Char.ofNat 39 then String.mk ['e', 'l', 'l', 'o']
            else "hello")), s2)) ∧
    (∃ s1 cell, Sheet.SetCell demoEnv 3 Sheet.empty A1 (String.mk [Char.ofNat 39, '1', '2', '3'])
        = some (.ok (), s1) ∧
      s1.find A1 = some cell ∧ cell.GetText = String.mk [Char.ofNat 39, '1', '2', '3'] ∧
      cell.GetReferencedCells = .ok [] ∧
      ∃ s2, GetValue demoEnv 1 s1 A1
        = some (.ok (Value.Text (if Char.ofNat 39 = Char.ofNat 39 then String.mk ['1', '2', '3']
            else String.mk [Char.ofNat 39, '1', '2', '3'])), s2)) :=
  ⟨text_round_trip demoEnv Sheet.empty A1 "hello" 'h' ['e', 'l', 'l', 'o'] 0 rfl rfl (by decide),
   text_round_trip demoEnv Sheet.empty A1 (String.mk [Char.ofNat 39, '1', '2', '3'])
     (Char.ofNat 39) ['1', '2', '3'] 0 rfl rfl (by decide)⟩

/-- C15: for a valid `p`, `ClearCell(p)` does not fail; afterwards `GetCell(p)`
returns absent, every other position holds what it held, and when `p` was already
absent the sheet is exactly the one before the call. -/
theorem clear_cell_frame (E : Env) (s : Sheet) (p : Position) (hv : E.IsValid p = true) :
    (s.ClearCell E p).1 = .ok () ∧
    (s.ClearCell E p).2.GetCell E p = .ok none ∧
    (∀ q, q ≠ p → (s.ClearCell E p).2.find q = s.find q) ∧
    (s.find p = none → (s.ClearCell E p).2 = s) := by
  have hcl : s.ClearCell E p = (.ok (), s.erase p) := by simp [Sheet.ClearCell, hv]
  rw [hcl]
  refine ⟨rfl, ?_, ?_, ?_⟩
  · simp only [Sheet.GetCell, hv, if_true]
    rw [find_erase, if_pos rfl]
  · intro q hq; simp only []; rw [find_erase, if_neg hq]
  · intro h
    simp only [Sheet.find] at h
    simp only [Sheet.erase, filter_absent p s.data_ h]

/-- Clearing B1 on the sheet holding A1 and B1, and clearing the absent C1. -/
theorem clear_cell_frame_witness :
    ((sheetA1B1.ClearCell demoEnv B1).1 = .ok () ∧
      (sheetA1B1.ClearCell demoEnv B1).2.GetCell demoEnv B1 = .ok none ∧
      (∀ q, q ≠ B1 → (sheetA1B1.ClearCell demoEnv B1).2.find q = sheetA1B1.find q) ∧
      (sheetA1B1.find B1 = none → (sheetA1B1.ClearCell demoEnv B1).2 = sheetA1B1)) ∧
    (sheetA1B1.ClearCell demoEnv C1).2 = sheetA1B1 :=
  ⟨clear_cell_frame demoEnv sheetA1B1 B1 rfl,
   (clear_cell_frame demoEnv sheetA1B1 C1 rfl).2.2.2 rfl⟩

theorem lookup_of_mem (p : Position) (l : List (Position × Cell)) (c : Cell)
    (h : (p, c) ∈ l) : ∃ c2, lookup p l = some c2 ∧ (p, c2) ∈ l := by
  cases hl : lookup p l with
  | some c2 => exact ⟨c2, rfl, lookup_some_mem p l c2 hl⟩
  | none =>
    exfalso
    induction l with
    | nil => cases h
    | cons e rest ih =>
      unfold lookup at hl
      by_cases he : e.1 = p
      · rw [if_pos he] at hl; cases hl
      · rw [if_neg he] at hl
        rcases List.mem_cons.mp h with h1 | h1
        · exact he (by rw [← h1])
        · exact ih h1 hl

theorem lookup_of_mem_nodup (p : Position) (l : List (Position × Cell)) (c : Cell)
    (hn : (l.map Prod.fst).Nodup) (h : (p, c) ∈ l) : lookup p l = some c := by
  induction l with
  | nil => cases h
  | cons e rest ih =>
    simp only [List.map_cons, List.nodup_cons] at hn
    unfold lookup
    rcases List.mem_cons.mp h with h1 | h1
    · rw [← h1]; simp
    · have hne : ¬ e.1 = p := by
        intro he
        apply hn.1
        rw [he]
        exact List.mem_map_of_mem Prod.fst h1
      rw [if_neg hne]
      exact ih hn.2 h1

theorem nodup_keys_filter (l : List (Position × Cell)) (q : Position × Cell → Bool)
    (hn : (l.map Prod.fst).Nodup) : ((l.filter q).map Prod.fst).Nodup := by
  induction l with
  | nil => simp
  | cons e rest ih =>
    simp only [List.map_cons, List.nodup_cons] at hn
    rw [List.filter_cons]
    by_cases hq : q e = true
    · rw [if_pos hq]
      simp only [List.map_cons, List.nodup_cons]
      refine ⟨?_, ih hn.2⟩
      intro hmem
      apply hn.1
      obtain ⟨x, hx, hx2⟩ := List.mem_map.mp hmem
      exact List.mem_map.mpr ⟨x, (List.mem_filter.mp hx).1, hx2⟩
    · rw [if_neg hq]
      exact ih hn.2

theorem nodup_erase (s : Sheet) (pos : Position) (hn : (s.data_.map Prod.fst).Nodup) :
    ((s.erase pos).data_.map Prod.fst).Nodup :=
  nodup_keys_filter s.data_ _ hn

theorem nodup_assign (s : Sheet) (pos : Position) (c : Cell)
    (hn : (s.data_.map Prod.fst).Nodup) : ((s.assign pos c).data_.map Prod.fst).Nodup := by
  simp only [Sheet.assign, List.map_cons, List.nodup_cons]
  refine ⟨?_, nodup_erase s pos hn⟩
  intro hmem
  obtain ⟨x, hx, hx2⟩ := List.mem_map.mp hmem
  simp only [Sheet.erase, List.mem_filter, decide_eq_true_eq] at hx
  exact hx.2 hx2

theorem nodup_matPure (E : Env) (refs : List Position) :
    ∀ s : Sheet, (s.data_.map Prod.fst).Nodup →
      ((matPure E refs s).2.data_.map Prod.fst).Nodup := by
  induction refs with
  | nil => intro s hn; exact hn
  | cons x rest ih =>
    intro s hn
    unfold matPure
    by_cases hv : E.IsValid x = true
    · simp only [hv, if_true]
      cases hf : s.find x with
      | some c => exact ih s hn
      | none => exact ih _ (nodup_assign s x _ hn)
    · simp only [hv]
      exact hn

theorem nodup_setPure (E : Env) (s : Sheet) (text : String)
    (hn : (s.data_.map Prod.fst).Nodup) :
    ((setPure E s text).2.2.data_.map Prod.fst).Nodup := by
  unfold setPure
  cases ht : text.data with
  | nil => exact hn
  | cons ch rest =>
    simp only []
    by_cases hc : ch = '=' ∧ rest ≠ []
    · rw [if_pos hc]
      cases hp : ParseFormula E (String.mk rest) with
      | none => exact hn
      | some f =>
        simp only []
        have hm := nodup_matPure E f.GetReferencedCells s hn
        cases hq : matPure E f.GetReferencedCells s with
        | mk o s1 =>
          rw [hq] at hm
          cases o with
          | error e => exact hm
          | ok u => exact hm
    · rw [if_neg hc]; exact hn

/-- The map of a reachable sheet has one entry per key. -/
theorem reachable_nodup (E : Env) (s : Sheet) (h : Reachable E s) :
    (s.data_.map Prod.fst).Nodup := by
  induction h with
  | empty => simp [Sheet.empty]
  | @setCell s0 s1 fuel pos text r _ hstep ih =>
    rcases SetCell_inv E fuel s0 pos text _ hstep with
      ⟨_, hq⟩ | ⟨_, ⟨e, _, hq⟩ | ⟨_, n, chk, _, hq⟩⟩
    · rw [(Prod.mk.inj hq).2]; exact ih
    · rw [(Prod.mk.inj hq).2]; exact nodup_setPure E s0 text ih
    · cases chk with
      | error e => rw [(Prod.mk.inj hq).2]; exact nodup_setPure E s0 text ih
      | ok b =>
        cases b with
        | true => rw [(Prod.mk.inj hq).2]; exact nodup_setPure E s0 text ih
        | false =>
          rw [(Prod.mk.inj hq).2]
          exact nodup_assign _ pos _ (nodup_setPure E s0 text ih)
  | clearCell pos _ ih =>
    unfold Sheet.ClearCell
    by_cases hv : E.IsValid pos = true
    · simp only [hv, if_true]; exact nodup_erase _ pos ih
    · simp only [hv]; exact ih

/-- C16: on a position that fails the validity predicate, `SetCell`, `GetCell` and
`ClearCell` each throw `InvalidPosition` and leave the sheet as it was; on a valid
position `ClearCell` does not fail and `GetCell` does not fail: it returns a cell of
an entry of the map at that position whenever the map has one (the stored cell
itself when keys are unique, as on every reachable sheet), and absent when the map
has no entry there. -/
theorem invalid_position_rejected (E : Env) (s : Sheet) (pos : Position) (text : String)
    (fuel : Nat) :
    (E.IsValid pos = false →
      Sheet.SetCell E (fuel + 1) s pos text = some (.error Failure.InvalidPosition, s) ∧
      s.GetCell E pos = .error Failure.InvalidPosition ∧
      s.ClearCell E pos = (.error Failure.InvalidPosition, s)) ∧
    (E.IsValid pos = true →
      (∃ r, s.GetCell E pos = .ok r ∧ (∀ c, r = some c → (pos, c) ∈ s.data_) ∧
        ((∀ c, (pos, c) ∉ s.data_) → r = none) ∧
        (∀ c, (pos, c) ∈ s.data_ → ∃ c2, r = some c2 ∧ (pos, c2) ∈ s.data_) ∧
        ((s.data_.map Prod.fst).Nodup → ∀ c, (pos, c) ∈ s.data_ → r = some c) ∧
        (Reachable E s → ∀ c, (pos, c) ∈ s.data_ → r = some c)) ∧
      (s.ClearCell E pos).1 = .ok ()) := by
  constructor
  · intro hv
    refine ⟨SetCell_invalid E fuel s pos text hv, ?_, ?_⟩
    · simp [Sheet.GetCell, hv]
    · simp [Sheet.ClearCell, hv]
  · intro hv
    refine ⟨⟨s.find pos, ?_, ?_, ?_, ?_, ?_, ?_⟩, ?_⟩
    · simp [Sheet.GetCell, hv]
    · intro c hc; exact lookup_some_mem pos s.data_ c hc
    · intro h; exact lookup_none pos s.data_ h
    · intro c hc; exact lookup_of_mem pos s.data_ c hc
    · intro hn c hc; exact lookup_of_mem_nodup pos s.data_ c hn hc
    · intro hr c hc; exact lookup_of_mem_nodup pos s.data_ c (reachable_nodup E s hr) hc
    · simp [Sheet.ClearCell, hv]

/-- On the reachable sheet holding A1 and B1, `GetCell(B1)` returns the stored empty
cell and `GetCell(C1)` returns absent. -/
theorem invalid_position_rejected_witness :
    sheetA1B1.GetCell demoEnv B1 = .ok (some Cell.emptyCell) ∧
    sheetA1B1.GetCell demoEnv C1 = .ok none ∧
    sheetA1B1.GetCell demoEnv ⟨-1, 0⟩ = .error Failure.InvalidPosition ∧
    ∃ r, sheetA1B1.GetCell demoEnv B1 = .ok r ∧
      (Reachable demoEnv sheetA1B1 → ∀ c, (B1, c) ∈ sheetA1B1.data_ → r = some c) :=
  ⟨rfl, rfl, rfl,
    let ⟨r, h1, _, _, _, _, h6⟩ :=
      ((invalid_position_rejected demoEnv sheetA1B1 B1 "" 0).2 rfl).1
    ⟨r, h1, h6⟩⟩

/-! ## Reading: error values and the cache policy -/

theorem lookup_map_cache (pos p : Position) (v : Value) (l : List (Position × Cell)) :
    lookup p (l.map (fun e => if e.1 = pos then (e.1, e.2.SetCache v) else e))
      = if p = pos then (lookup p l).map (fun c => c.SetCache v) else lookup p l := by
  induction l with
  | nil => simp [lookup]
  | cons e rest ih =>
    simp only [List.map_cons, lookup]
    by_cases h1 : e.1 = pos
    · by_cases h2 : e.1 = p
      · have h3 : p = pos := by rw [← h2, h1]
        simp [h1, h2, h3]
      · simp only [h1, if_true, h2, if_false]
        rw [h1] at h2
        simp only [h2, if_false]
        exact ih
    · by_cases h2 : e.1 = p
      · have h3 : ¬ p = pos := by rw [← h2]; exact h1
        simp [h1, h2, h3]
      · simp only [h1, if_false, h2]
        exact ih

/-- After `SetCache` on the cell stored at `pos`, that cell holds the value in its
slot, marked as cached; every other cell is as before. -/
theorem find_SetCache (s : Sheet) (pos p : Position) (v : Value) :
    (s.SetCache pos v).find p
      = if p = pos then (s.find p).map (fun c => c.SetCache v) else s.find p := by
  simp only [Sheet.SetCache, Sheet.find]
  exact lookup_map_cache pos p v s.data_

/-- When every dependency is valid and present, the `any_of` of `GetValue` returns, and
it returns true exactly when some dependency holds a cached value. -/
theorem anyModified_present (E : Env) (s : Sheet) (l : List Position)
    (h : ∀ d ∈ l, E.IsValid d = true ∧ ∃ c, s.find d = some c) :
    ∃ b, anyModified E s l = .ok b ∧
      (b = true ↔ ∃ d ∈ l, ∃ c, s.find d = some c ∧ c.cache_.modification_flag_ = false) := by
  induction l with
  | nil => exact ⟨false, rfl, by simp⟩
  | cons x rest ih =>
    obtain ⟨hv, c, hc⟩ := h x (List.mem_cons_self _ _)
    obtain ⟨b, hb, hb2⟩ := ih (fun d hd => h d (List.mem_cons_of_mem _ hd))
    unfold anyModified
    simp only [Sheet.GetCell, hv, if_true, hc]
    by_cases hm : c.cache_.modification_flag_ = false
    · refine ⟨true, by simp [Cell.IsModified, CellCache.toBool, hm], ?_⟩
      simp only [true_iff]
      exact ⟨x, List.mem_cons_self _ _, c, hc, hm⟩
    · have hm2 : c.cache_.modification_flag_ = true := by simpa using hm
      refine ⟨b, by simp [Cell.IsModified, CellCache.toBool, hm2, hb], ?_⟩
      rw [hb2]
      constructor
      · rintro ⟨d, hd, c2, hc2, hf⟩
        exact ⟨d, List.mem_cons_of_mem _ hd, c2, hc2, hf⟩
      · rintro ⟨d, hd, c2, hc2, hf⟩
        rcases List.mem_cons.mp hd with rfl | hd2
        · rw [hc] at hc2
          cases hc2
          rw [hm2] at hf; cases hf
        · exact ⟨d, hd2, c2, hc2, hf⟩

/-- A read of a formula cell that executes the expression (the slot is empty, or a
dependency holds a cached value) does not fail: when the execution raises a
computation error `k` the read returns `Error k`, when it returns a number `d` the
read returns `Number d`, and the result is stored in the slot. `Formula::Evaluate`
turns a raised error into the error value and a number into the number value, and
the three errors are displayed as "#REF!", "#VALUE!" and "#DIV/0!". -/
theorem executed_read_returns_result (E : Env) (s s1 : Sheet) (pos : Position) (cell : Cell)
    (f : Formula) (fuel : Nat) (r : Except FormulaError Int)
    (hcell : s.find pos = some cell) (himpl : cell.impl_ = some (Impl.FormulaImpl f))
    (hread : cell.cache_.modification_flag_ = true ∨
      anyModified E s f.GetReferencedCells = .ok true)
    (hexec : runExec E (GetValue E fuel) f.ast_.Execute s = some (.ok r, s1)) :
    (∀ k, r = .error k →
      Formula.Evaluate r = Value.Error k ∧
      Impl.GetValue E (GetValue E fuel) (Impl.FormulaImpl f) s = some (.ok (Value.Error k), s1) ∧
      GetValue E (fuel + 1) s pos
        = some (.ok (Value.Error k), s1.SetCache pos (Value.Error k))) ∧
    (∀ d, r = .ok d →
      Formula.Evaluate r = Value.Number d ∧
      Impl.GetValue E (GetValue E fuel) (Impl.FormulaImpl f) s = some (.ok (Value.Number d), s1) ∧
      GetValue E (fuel + 1) s pos
        = some (.ok (Value.Number d), s1.SetCache pos (Value.Number d))) ∧
    FormulaError.Ref.ToString = "#REF!" ∧ FormulaError.Value.ToString = "#VALUE!" ∧
    FormulaError.Div0.ToString = "#DIV/0!" := by
  have hrefs : cell.GetReferencedCells = .ok f.GetReferencedCells := by
    simp [Cell.GetReferencedCells, himpl, Impl.GetReferencedCells]
  have hcond : (if (!cell.cache_.toBool) = true then Except.ok true
      else anyModified E s f.GetReferencedCells) = .ok true := by
    rcases hread with h | h
    · simp [CellCache.toBool, h]
    · by_cases hb : (!cell.cache_.toBool) = true
      · rw [if_pos hb]
      · rw [if_neg hb]; exact h
  have himplv : Impl.GetValue E (GetValue E fuel) (Impl.FormulaImpl f) s
      = some (.ok (Formula.Evaluate r), s1) := by
    simp [Impl.GetValue, hexec]
  have hget : GetValue E (fuel + 1) s pos
      = some (.ok (ValueVisitor (Formula.Evaluate r)),
          s1.SetCache pos (ValueVisitor (Formula.Evaluate r))) := by
    rw [GetValue]
    simp only [hcell, hrefs, hcond, himpl, himplv]
  refine ⟨?_, ?_, rfl, rfl, rfl⟩
  · intro k hk
    subst hk
    exact ⟨rfl, himplv, hget⟩
  · intro d hd
    subst hd
    exact ⟨rfl, himplv, hget⟩

/-- A cell whose formula divides by zero: the first read returns `Error Div0`,
displayed as "#DIV/0!". -/
theorem executed_read_example :
    GetValue demoEnv 1 sheetDivZero A1
      = some (.ok (Value.Error FormulaError.Div0),
          sheetDivZero.SetCache A1 (Value.Error FormulaError.Div0)) ∧
    FormulaError.Div0.ToString = "#DIV/0!" :=
  ⟨((executed_read_returns_result demoEnv sheetDivZero sheetDivZero A1
      (formulaCell astDivZero) (Formula.new astDivZero) 0 (.error FormulaError.Div0)
      rfl rfl (Or.inl rfl) rfl).1 FormulaError.Div0 rfl).2.2, rfl⟩

/-- C17 (evaluated on the code): after A1 = "5", B1 = "=A1+1", a read of B1 and
`SetCell(A1, "x")`, the execution of B1's expression raises `Value` (evaluating the
current contents with no cache gives `Error Value`, displayed "#VALUE!"), yet the
read of B1 returns the memoised `Number 6`. -/
theorem error_read_returns_stale_number :
    (runCalls demoEnv 4
        [.SetCell A1 "5", .SetCell B1 "=A1+1", .GetValue B1, .SetCell A1 "x", .GetValue B1]
        Sheet.empty).map Prod.fst
      = some [.returned, .returned, .value (.Number 6), .returned, .value (.Number 6)] ∧
    (match runCalls demoEnv 4
        [.SetCell A1 "5", .SetCell B1 "=A1+1", .GetValue B1, .SetCell A1 "x"] Sheet.empty with
      | some (_, s) => freshValue demoEnv 4 s B1
      | none => none) = some (.ok (.Error FormulaError.Value)) ∧
    Formula.Evaluate (.error FormulaError.Value) = Value.Error FormulaError.Value ∧
    FormulaError.Value.ToString = "#VALUE!" :=
  ⟨by decide, rfl, rfl, rfl⟩

/-- C18: for a cell whose directly referenced positions are all valid and present,
`GetValue()` evaluates the content, stores the result in the slot and marks it
cached exactly when the slot is empty or some directly referenced cell holds a
cached value; otherwise it returns the stored value and touches nothing. -/
theorem cache_reuse_policy (E : Env) (s : Sheet) (pos : Position) (cell : Cell) (i : Impl)
    (fuel : Nat) (hcell : s.find pos = some cell) (himpl : cell.impl_ = some i)
    (hdeps : ∀ d ∈ i.GetReferencedCells, E.IsValid d = true ∧ ∃ c, s.find d = some c) :
    ((cell.cache_.modification_flag_ = true ∨
        ∃ d ∈ i.GetReferencedCells, ∃ c, s.find d = some c ∧ c.cache_.modification_flag_ = false) →
      GetValue E (fuel + 1) s pos =
        match i.GetValue E (GetValue E fuel) s with
        | none => none
        | some (.error e, s1) => some (.error e, s1)
        | some (.ok v, s1) => some (.ok (ValueVisitor v), s1.SetCache pos (ValueVisitor v))) ∧
    (¬ (cell.cache_.modification_flag_ = true ∨
        ∃ d ∈ i.GetReferencedCells, ∃ c, s.find d = some c ∧ c.cache_.modification_flag_ = false) →
      GetValue E (fuel + 1) s pos = some (.ok cell.cache_.val_, s)) ∧
    (∀ (s1 : Sheet) (v : Value) (c : Cell), s1.find pos = some c →
      ∃ c1, (s1.SetCache pos v).find pos = some c1 ∧ c1.cache_.val_ = v ∧
        c1.cache_.modification_flag_ = false ∧ c1.impl_ = c.impl_) := by
  have hrefs : cell.GetReferencedCells = .ok i.GetReferencedCells := by
    simp [Cell.GetReferencedCells, himpl]
  obtain ⟨b, hb, hb2⟩ := anyModified_present E s i.GetReferencedCells hdeps
  refine ⟨?_, ?_, ?_⟩
  · intro hcond
    have hc : (if (!cell.cache_.toBool) = true then Except.ok true
        else anyModified E s i.GetReferencedCells) = .ok true := by
      by_cases hf : cell.cache_.modification_flag_ = true
      · simp [CellCache.toBool, hf]
      · rcases hcond with h | h
        · exact absurd h hf
        · have hbt := hb2.mpr h
          subst hbt
          simp [CellCache.toBool, hf, hb]
    rw [GetValue]
    simp only [hcell, hrefs, hc, himpl]
  · intro hcond
    have hf : cell.cache_.modification_flag_ = false := by
      cases hm : cell.cache_.modification_flag_ with
      | true => exact absurd (Or.inl hm) hcond
      | false => rfl
    have hbf : b = false := by
      cases b with
      | true => exact absurd (Or.inr (hb2.mp rfl)) hcond
      | false => rfl
    subst hbf
    have hc : (if (!cell.cache_.toBool) = true then Except.ok true
        else anyModified E s i.GetReferencedCells) = .ok false := by
      simp [CellCache.toBool, hf, hb]
    rw [GetValue]
    simp only [hcell, hrefs, hc]
    rfl
  · intro s1 v c hc
    refine ⟨c.SetCache v, ?_, rfl, rfl, rfl⟩
    rw [find_SetCache, if_pos rfl, hc]
    rfl

/-- The formula at A1 of the sample sheet has an empty slot, so its read evaluates. -/
theorem cache_reuse_policy_witness :
    GetValue demoEnv 2 sheetA1B1 A1 =
      match (Impl.FormulaImpl (Formula.new (astRef "B1" B1))).GetValue demoEnv
          (GetValue demoEnv 1) sheetA1B1 with
      | none => none
      | some (.error e, s1) => some (.error e, s1)
      | some (.ok v, s1) => some (.ok (ValueVisitor v), s1.SetCache A1 (ValueVisitor v)) :=
  (cache_reuse_policy demoEnv sheetA1B1 A1 (formulaCell (astRef "B1" B1))
    (Impl.FormulaImpl (Formula.new (astRef "B1" B1))) 1 rfl rfl
    (by
      intro d hd
      have hl : (Impl.FormulaImpl (Formula.new (astRef "B1" B1))).GetReferencedCells = [B1] := rfl
      rw [hl] at hd
      have hd2 : d = B1 := by simpa using hd
      subst hd2
      exact ⟨rfl, _, rfl⟩)).1 (Or.inl rfl)

/-! ## Totality of the cycle check -/

theorem checkLoop_mono (rec rec2 : Position → Option (Except Failure Bool)) (head : Position)
    (hrec : ∀ x r, rec x = some r → rec2 x = some r) (l : List Position) :
    ∀ res r, checkLoop rec head l res = some r → checkLoop rec2 head l res = some r := by
  induction l with
  | nil => intro res r h; exact h
  | cons x rest ih =>
    intro res r h
    unfold checkLoop at h ⊢
    by_cases hx : x = head
    · rw [if_pos hx] at h ⊢; exact h
    · rw [if_neg hx] at h ⊢
      cases res with
      | true => simp only [if_true] at h ⊢; exact ih true r h
      | false =>
        simp only [Bool.false_eq_true, if_false] at h ⊢
        cases hr : rec x with
        | none => simp [hr] at h
        | some o =>
          rw [hrec x o hr]
          rw [hr] at h
          cases o with
          | error e => exact h
          | ok b => exact ih b r h

/-- A larger budget never changes what the cycle check returns. -/
theorem check_mono (E : Env) (s : Sheet) (head : Position) :
    ∀ (fuel : Nat) (co : Option Cell) (r : Except Failure Bool),
      s.CheckCircularDependencies E fuel co head = some r →
      s.CheckCircularDependencies E (fuel + 1) co head = some r := by
  intro fuel
  induction fuel with
  | zero => intro co r h; simp [Sheet.CheckCircularDependencies] at h
  | succ n ih =>
    intro co r h
    cases co with
    | none => simpa [Sheet.CheckCircularDependencies] using h
    | some cell =>
      rw [Sheet.CheckCircularDependencies] at h ⊢
      cases hr : cell.GetReferencedCells with
      | error e => simpa [hr] using h
      | ok refs =>
        simp only [hr] at h ⊢
        apply checkLoop_mono _ _ head _ refs false r h
        intro x r2 hx
        cases hg : s.GetCell E x with
        | error e => simpa [hg] using hx
        | ok c => simp only [hg] at hx ⊢; exact ih c r2 hx

theorem check_mono_add (E : Env) (s : Sheet) (head : Position) (fuel : Nat) (co : Option Cell)
    (r : Except Failure Bool) (h : s.CheckCircularDependencies E fuel co head = some r) :
    ∀ k, s.CheckCircularDependencies E (fuel + k) co head = some r := by
  intro k
  induction k with
  | zero => exact h
  | succ n ih => exact check_mono E s head (fuel + n) co r ih

/-- On an acyclic sheet the cycle check of any candidate returns once the budget
exceeds the number of stored cells by two. -/
theorem check_total (E : Env) (s : Sheet) (hac : Acyclic s) (co : Option Cell)
    (head : Position) (fuel : Nat) (hfuel : s.data_.length + 2 ≤ fuel) :
    ∃ r, s.CheckCircularDependencies E fuel co head = some r := by
  obtain ⟨n, rfl⟩ : ∃ n, fuel = n + 1 := ⟨fuel - 1, by omega⟩
  cases co with
  | none => exact ⟨_, rfl⟩
  | some cand =>
    rw [Sheet.CheckCircularDependencies]
    cases hc : cand.GetReferencedCells with
    | error e => exact ⟨_, rfl⟩
    | ok refs =>
      simp only []
      apply checkLoop_some
      intro y _
      simp only [Sheet.GetCell]
      by_cases hv : E.IsValid y = true
      · simp only [hv, if_true]
        apply check_returns E s hac head n [] y List.nodup_nil
        · intro v hv2; cases hv2
        · intro v hv2; cases hv2
        · simp only [List.length_nil]; omega
      · simp only [hv]
        exact ⟨_, rfl⟩

/-- Every `SetCell` call on an acyclic sheet returns, with one and the same result
for every budget above a bound. -/
theorem SetCell_total (E : Env) (s : Sheet) (hac : Acyclic s) (pos : Position) (text : String) :
    ∃ N r, ∀ fuel, N ≤ fuel → Sheet.SetCell E fuel s pos text = some r := by
  by_cases hv : E.IsValid pos = true
  · cases he : (setPure E s text).1 with
    | error e =>
      refine ⟨3, (.error e, (setPure E s text).2.2), ?_⟩
      intro fuel hf
      obtain ⟨n, rfl⟩ : ∃ n, fuel = n + 3 := ⟨fuel - 3, by omega⟩
      exact SetCell_run_error E n s pos text hv e he
    | ok u =>
      have hac1 := acyclic_setPure E s text hac
      obtain ⟨chk, hchk⟩ := check_total E _ hac1 (some (setPure E s text).2.1) pos
        ((setPure E s text).2.2.data_.length + 2) (le_refl _)
      refine ⟨(setPure E s text).2.2.data_.length + 3,
        commit chk (setPure E s text).2.2 pos (setPure E s text).2.1, ?_⟩
      intro fuel hf
      obtain ⟨k, rfl⟩ : ∃ k, fuel = ((setPure E s text).2.2.data_.length + k) + 3 :=
        ⟨fuel - ((setPure E s text).2.2.data_.length + 3), by omega⟩
      apply SetCell_run_ok E _ s pos text hv he chk
      have := check_mono_add E _ pos _ _ chk hchk k
      rw [show (setPure E s text).2.2.data_.length + k + 2
        = (setPure E s text).2.2.data_.length + 2 + k by omega]
      exact this
  · refine ⟨1, (.error Failure.InvalidPosition, s), ?_⟩
    intro fuel hf
    obtain ⟨n, rfl⟩ : ∃ n, fuel = n + 1 := ⟨fuel - 1, by omega⟩
    exact SetCell_invalid E n s pos text (by simpa using hv)

/-- C19: on a sheet whose stored reference graph is acyclic, the recursive cycle
check returns for every candidate cell and every head position once the budget
exceeds the number of stored cells by two, with no visited set; hence every
`SetCell` call on a sheet reached from the empty sheet returns, with the same
result for every budget above a bound. -/
theorem cycle_check_terminates (E : Env) (s : Sheet) :
    (Acyclic s → ∀ (candidate : Option Cell) (head : Position) (fuel : Nat),
      s.data_.length + 2 ≤ fuel →
      ∃ r, s.CheckCircularDependencies E fuel candidate head = some r) ∧
    (Reachable E s → ∀ (pos : Position) (text : String),
      ∃ N r, ∀ fuel, N ≤ fuel → Sheet.SetCell E fuel s pos text = some r) :=
  ⟨fun hac candidate head fuel hfuel => check_total E s hac candidate head fuel hfuel,
   fun h pos text => SetCell_total E s (reachable_invariant E s h).2 pos text⟩

/-- C20 (evaluated on the code): after A1 = "5", B1 = "=A1+1", a read of B1,
`SetCell(A1, "10")` and `SetCell(C1, "=B1+A1")`, two consecutive reads of C1 return
`Number 16` and then `Number 21`. -/
theorem consecutive_reads_differ :
    (runCalls demoEnv 5
        [.SetCell A1 "5", .SetCell B1 "=A1+1", .GetValue B1, .SetCell A1 "10",
         .SetCell C1 "=B1+A1", .GetValue C1, .GetValue C1] Sheet.empty).map Prod.fst
      = some [.returned, .returned, .value (.Number 6), .returned, .returned,
              .value (.Number 16), .value (.Number 21)] := by
  decide

/-! ## Reads return on an acyclic sheet without dangling references -/

theorem sameContent_refl (s : Sheet) : SameContent s s := rfl

theorem sameContent_trans (s t u : Sheet) (h1 : SameContent s t) (h2 : SameContent t u) :
    SameContent s u := by
  unfold SameContent at *
  rw [h2, h1]

theorem sameContent_length (s t : Sheet) (h : SameContent s t) :
    t.data_.length = s.data_.length := by
  have := congrArg List.length h
  simpa using this

theorem sameContent_keys (s t : Sheet) (h : SameContent s t) :
    t.data_.map Prod.fst = s.data_.map Prod.fst := by
  have := congrArg (List.map Prod.fst) h
  simpa [List.map_map, Function.comp] using this

theorem lookup_sameContent (p : Position) (ls : List (Position × Cell)) :
    ∀ lt : List (Position × Cell),
      lt.map (fun e => (e.1, e.2.impl_)) = ls.map (fun e => (e.1, e.2.impl_)) →
      (lookup p lt).map (fun c => c.impl_) = (lookup p ls).map (fun c => c.impl_) := by
  induction ls with
  | nil =>
    intro lt h
    cases lt with
    | nil => rfl
    | cons a b => simp at h
  | cons x rest ih =>
    intro lt h
    cases lt with
    | nil => simp at h
    | cons a b =>
      simp only [List.map_cons, List.cons.injEq, Prod.mk.injEq] at h
      obtain ⟨⟨hk, hi⟩, hrest⟩ := h
      unfold lookup
      by_cases hx : x.1 = p
      · have ha : a.1 = p := by rw [hk]; exact hx
        rw [if_pos hx, if_pos ha]
        simp [hi]
      · have ha : ¬ a.1 = p := by rw [hk]; exact hx
        rw [if_neg hx, if_neg ha]
        exact ih b hrest

theorem sameContent_find (s t : Sheet) (h : SameContent s t) (p : Position) :
    (t.find p).map (fun c => c.impl_) = (s.find p).map (fun c => c.impl_) :=
  lookup_sameContent p s.data_ t.data_ h

theorem sameContent_present (s t : Sheet) (h : SameContent s t) (p : Position) (c : Cell)
    (hc : s.find p = some c) : ∃ c2, t.find p = some c2 ∧ c2.impl_ = c.impl_ := by
  have := sameContent_find s t h p
  rw [hc] at this
  cases ht : t.find p with
  | none => rw [ht] at this; simp at this
  | some c2 =>
    rw [ht] at this
    simp only [Option.map_some', Option.some.injEq] at this
    exact ⟨c2, rfl, this⟩

theorem sameContent_symm (s t : Sheet) (h : SameContent s t) : SameContent t s := by
  unfold SameContent at *
  rw [h]

theorem refsOf_impl (c1 c2 : Cell) (h : c1.impl_ = c2.impl_) : refsOf (some c1) = refsOf (some c2) := by
  obtain ⟨i1, k1⟩ := c1
  obtain ⟨i2, k2⟩ := c2
  simp only at h
  subst h
  cases i1 <;> rfl

theorem sameContent_refsOf (s t : Sheet) (h : SameContent s t) (p : Position) :
    refsOf (t.find p) = refsOf (s.find p) := by
  cases hs : s.find p with
  | some c =>
    obtain ⟨c2, hc2, hi⟩ := sameContent_present s t h p c hs
    rw [hc2]
    exact refsOf_impl c2 c hi
  | none =>
    cases ht : t.find p with
    | none => rfl
    | some c2 =>
      obtain ⟨c3, hc3, _⟩ := sameContent_present t s (sameContent_symm s t h) p c2 ht
      rw [hs] at hc3; cases hc3

theorem sameContent_edge (s t : Sheet) (h : SameContent s t) : Edge t = Edge s := by
  funext x y
  unfold Edge
  rw [sameContent_refsOf s t h x]

theorem sameContent_SetCache (s : Sheet) (pos : Position) (v : Value) :
    SameContent s (s.SetCache pos v) := by
  unfold SameContent Sheet.SetCache
  simp only [List.map_map]
  apply List.map_congr_left
  intro e _
  simp only [Function.comp]
  by_cases h : e.1 = pos
  · rw [if_pos h]; rfl
  · rw [if_neg h]

theorem evaluable_sameContent (E : Env) (s t : Sheet) (h : SameContent s t)
    (he : Evaluable E s) : Evaluable E t := by
  obtain ⟨hwf, hac, hpres, heng⟩ := he
  have hsym := sameContent_symm s t h
  have hedge := sameContent_edge s t h
  refine ⟨?_, ?_, ?_, ?_⟩
  · intro p c hc
    obtain ⟨c2, hc2, hi⟩ := sameContent_present t s hsym p c hc
    obtain ⟨hv, i, hi2, hr⟩ := hwf p c2 hc2
    exact ⟨hv, i, by rw [← hi, hi2], hr⟩
  · intro x hx
    rw [hedge] at hx
    exact hac x hx
  · intro x y hxy
    rw [hedge] at hxy
    obtain ⟨c, hc⟩ := hpres x y hxy
    obtain ⟨c2, hc2, _⟩ := sameContent_present s t h y c hc
    exact ⟨c2, hc2⟩
  · intro p c f hc hi
    obtain ⟨c2, hc2, hi2⟩ := sameContent_present t s hsym p c hc
    exact heng p c2 f hc2 (by rw [hi2, hi])

theorem runExec_returns (E : Env)
    (G : Sheet → Position → Option (Except Failure Value × Sheet)) (Inv : Sheet → Prop)
    (refs : List Position)
    (hG : ∀ t p, Inv t → p ∈ refs →
      E.IsValid p = true ∧ (∃ c, t.find p = some c) ∧
        ∃ v t1, G t p = some (.ok v, t1) ∧ Inv t1)
    (exec : Exec) (hex : AsksWithin refs exec) :
    ∀ t, Inv t → ∃ r t1, runExec E G exec t = some (.ok r, t1) ∧ Inv t1 := by
  induction hex with
  | ret r => intro t ht; exact ⟨r, t, rfl, ht⟩
  | ask p k hp _ ih =>
    intro t ht
    obtain ⟨hv, ⟨c, hc⟩, v, t1, hg, ht1⟩ := hG t p ht hp
    obtain ⟨r, t2, hr, ht2⟩ := ih (some v) t1 ht1
    refine ⟨r, t2, ?_, ht2⟩
    rw [runExec]
    simp only [Sheet.GetCell, hv, if_true, hc, hg]
    exact hr

/-- On an evaluable sheet a read of a present cell returns a value, changing
memoisation slots only, as soon as the budget exceeds the number of stored cells not
yet on the current chain `V` of cells being evaluated. -/
theorem getValue_returns (E : Env) :
    ∀ (fuel : Nat) (s : Sheet), Evaluable E s →
      ∀ (V : List Position) (x : Position),
        V.Nodup → (∀ v ∈ V, v ∈ s.data_.map Prod.fst) →
        (∀ v ∈ V, Relation.TransGen (Edge s) v x) →
        s.data_.length < fuel + V.length → (∃ c, s.find x = some c) →
        ∃ v s1, GetValue E fuel s x = some (.ok v, s1) ∧ SameContent s s1 := by
  intro fuel
  induction fuel with
  | zero =>
    intro s _ V x hn hk _ hlen _
    have := nodup_length_le V _ hn hk
    simp only [List.length_map] at this
    omega
  | succ n ih =>
    intro s hev V x hn hk hreach hlen hx
    obtain ⟨cell, hcell⟩ := hx
    obtain ⟨hwf, hac, hpres, heng⟩ := hev
    obtain ⟨_, i, hi, hrv⟩ := hwf x cell hcell
    have hrefs : cell.GetReferencedCells = .ok i.GetReferencedCells := by
      simp [Cell.GetReferencedCells, hi]
    have hrefsOf : refsOf (s.find x) = i.GetReferencedCells := by
      rw [hcell]; exact refsOf_some cell _ hrefs
    have hdeps : ∀ d ∈ i.GetReferencedCells, E.IsValid d = true ∧ ∃ c, s.find d = some c :=
      fun d hd => ⟨hrv d hd, hpres x d (by unfold Edge; rw [hrefsOf]; exact hd)⟩
    obtain ⟨b, hb, _⟩ := anyModified_present E s _ hdeps
    have hcond : ∃ b2, (if (!cell.cache_.toBool) = true then Except.ok true
        else anyModified E s i.GetReferencedCells) = .ok b2 := by
      by_cases hf : (!cell.cache_.toBool) = true
      · exact ⟨true, by rw [if_pos hf]⟩
      · exact ⟨b, by rw [if_neg hf]; exact hb⟩
    obtain ⟨b2, hb2⟩ := hcond
    rw [GetValue]
    simp only [hcell, hrefs, hb2]
    cases b2 with
    | false => exact ⟨_, _, rfl, sameContent_refl s⟩
    | true =>
      simp only [hi]
      have himp : ∃ v t, i.GetValue E (GetValue E n) s = some (.ok v, t) ∧ SameContent s t := by
        cases i with
        | EmptyImpl => exact ⟨_, _, rfl, sameContent_refl s⟩
        | TextImpl d => exact ⟨_, _, rfl, sameContent_refl s⟩
        | FormulaImpl f =>
          have hxV : x ∉ V := fun hx => hac x (hreach x hx)
          have hG : ∀ t p, SameContent s t → p ∈ f.GetReferencedCells →
              E.IsValid p = true ∧ (∃ c, t.find p = some c) ∧
                ∃ v t1, GetValue E n t p = some (.ok v, t1) ∧ SameContent s t1 := by
            intro t p ht hp
            obtain ⟨hvp, c, hc⟩ := hdeps p hp
            obtain ⟨c2, hc2, _⟩ := sameContent_present s t ht p c hc
            have hedge : Edge s x p := by unfold Edge; rw [hrefsOf]; exact hp
            obtain ⟨v, t1, hv, ht1⟩ := ih t
              (evaluable_sameContent E s t ht ⟨hwf, hac, hpres, heng⟩) (x :: V) p
              (List.nodup_cons.mpr ⟨hxV, hn⟩)
              (by
                intro w hw
                rw [sameContent_keys s t ht]
                rcases List.mem_cons.mp hw with h1 | h1
                · rw [h1]; exact lookup_mem x s.data_ cell hcell
                · exact hk w h1)
              (by
                intro w hw
                rw [sameContent_edge s t ht]
                rcases List.mem_cons.mp hw with h1 | h1
                · rw [h1]; exact Relation.TransGen.single hedge
                · exact Relation.TransGen.tail (hreach w h1) hedge)
              (by
                rw [sameContent_length s t ht]
                simp only [List.length_cons]; omega)
              ⟨c2, hc2⟩
            exact ⟨hvp, ⟨c2, hc2⟩, v, t1, hv, sameContent_trans s t t1 ht ht1⟩
          obtain ⟨r, t1, hr, ht1⟩ := runExec_returns E (GetValue E n)
            (fun t => SameContent s t) f.GetReferencedCells hG f.ast_.Execute
            (heng x cell f hcell hi) s (sameContent_refl s)
          refine ⟨Formula.Evaluate r, t1, ?_, ht1⟩
          simp only [Impl.GetValue, hr]
      obtain ⟨v, t, hv, hsc⟩ := himp
      simp only [hv]
      exact ⟨_, _, rfl, sameContent_trans s t _ hsc (sameContent_SetCache t x _)⟩

/-! ## Grid dumps -/

theorem mem_countUp (n : Nat) : ∀ (lo j : Int), j ∈ countUp lo n ↔ (lo ≤ j ∧ j < lo + n) := by
  induction n with
  | zero => intro lo j; simp [countUp]
  | succ m ih =>
    intro lo j
    simp only [countUp, List.mem_cons, ih]
    push_cast
    omega

theorem printRow_spec (cellOut : Sheet → Position → Option (Except Failure String × Sheet))
    (Inv : Sheet → Prop) (P : Position → String → Prop) (i rc : Int) :
    ∀ (n : Nat) (lo : Int) (st : Sheet) (out : String),
      Inv st → (n = 0 ∨ lo + n = rc + 1) →
      (∀ a j, Inv a → j ∈ countUp lo n →
        ∃ str b, cellOut a ⟨i, j⟩ = some (.ok str, b) ∧ Inv b ∧ P ⟨i, j⟩ str) →
      ∃ strs st1, printRow cellOut i rc (countUp lo n) st out
          = some (.ok (), out ++ joinTabs strs, st1) ∧ Inv st1 ∧
        List.Forall₂ (fun j str => P ⟨i, j⟩ str) (countUp lo n) strs := by
  intro n
  induction n with
  | zero =>
    intro lo st out hst _ _
    refine ⟨[], st, ?_, hst, List.Forall₂.nil⟩
    simp [countUp, printRow, joinTabs]
  | succ m ih =>
    intro lo st out hst hlen hcell
    have hlen2 : lo + ((m + 1 : Nat) : Int) = rc + 1 := by
      rcases hlen with h | h
      · omega
      · exact h
    obtain ⟨str, b, hout, hb, hP⟩ := hcell st lo hst (by simp [countUp])
    obtain ⟨strs, st1, hrun, hst1, hall⟩ := ih (lo + 1) b
      ((out ++ str) ++ (if lo < rc then "\t" else "")) hb
      (by right; push_cast at hlen2 ⊢; omega)
      (fun a j ha hj => hcell a j ha (by simp only [countUp]; exact List.mem_cons_of_mem _ hj))
    refine ⟨str :: strs, st1, ?_, hst1, List.Forall₂.cons hP hall⟩
    simp only [countUp, printRow, hout]
    rw [hrun]
    congr 2
    congr 1
    cases m with
    | zero =>
      have hs : strs = [] := by
        cases hall with
        | nil => rfl
      subst hs
      have hnot : ¬ lo < rc := by push_cast at hlen2; omega
      simp [joinTabs, hnot, String.append_empty]
    | succ k =>
      have hlt : lo < rc := by push_cast at hlen2; omega
      cases hall with
      | cons h1 h2 =>
        simp only [joinTabs, hlt, if_true, String.append_assoc]

theorem forRange_len (lo hi : Int) (h : lo ≤ hi + 1) :
    lo + ((hi + 1 - lo).toNat : Int) = hi + 1 := by
  rw [Int.toNat_of_nonneg (by omega)]
  omega

theorem printRows_spec (cellOut : Sheet → Position → Option (Except Failure String × Sheet))
    (Inv : Sheet → Prop) (P : Position → String → Prop) (l r : Position)
    (hcols : l.col ≤ r.col + 1) (rows : List Int)
    (hcell : ∀ a i j, Inv a → i ∈ rows → j ∈ forRange l.col r.col →
      ∃ str b, cellOut a ⟨i, j⟩ = some (.ok str, b) ∧ Inv b ∧ P ⟨i, j⟩ str) :
    ∀ (st : Sheet) (out : String), Inv st →
      ∃ grid st1, printRows cellOut l r rows st out = some (.ok (), out ++ gridDump grid, st1) ∧
        Inv st1 ∧
        List.Forall₂ (fun i row => List.Forall₂ (fun j str => P ⟨i, j⟩ str)
          (forRange l.col r.col) row) rows grid := by
  induction rows with
  | nil =>
    intro st out hst
    refine ⟨[], st, ?_, hst, List.Forall₂.nil⟩
    simp [printRows, gridDump]
  | cons i rest ih =>
    intro st out hst
    obtain ⟨strs, st1, hrow, hst1, hall⟩ := printRow_spec cellOut Inv P i r.col
      (r.col + 1 - l.col).toNat l.col st out hst (Or.inr (forRange_len l.col r.col hcols))
      (fun a j ha hj => hcell a i j ha (List.mem_cons_self _ _) hj)
    obtain ⟨grid, st2, hrest, hst2, hall2⟩ :=
      ih (fun a i2 j ha hi hj => hcell a i2 j ha (List.mem_cons_of_mem _ hi) hj)
        st1 ((out ++ joinTabs strs) ++ "\n") hst1
    refine ⟨strs :: grid, st2, ?_, hst2, List.Forall₂.cons hall hall2⟩
    simp only [printRows, forRange]
    rw [hrow]
    simp only []
    rw [hrest]
    simp only [gridDump, String.append_assoc]

theorem forall2_eq_map {α β : Type} (f : α → β) (l1 : List α) :
    ∀ l2 : List β, List.Forall₂ (fun a b => b = f a) l1 l2 → l2 = l1.map f := by
  induction l1 with
  | nil => intro l2 h; cases h; rfl
  | cons x rest ih =>
    intro l2 h
    cases h with
    | cons h1 h2 => rw [h1, ih _ h2]; rfl

theorem forall2_map_rows {α β : Type} (cols : List α) (f : Int → α → β) (rows : List Int) :
    ∀ grid : List (List β),
      List.Forall₂ (fun i row => List.Forall₂ (fun j str => str = f i j) cols row) rows grid →
      grid = rows.map (fun i => cols.map (fun j => f i j)) := by
  induction rows with
  | nil => intro grid h; cases h; rfl
  | cons x rest ih =>
    intro grid h
    cases h with
    | cons h1 h2 =>
      rw [forall2_eq_map (fun j => f x j) cols _ h1, ih _ h2]; rfl

theorem box_nonneg (E : Env) (maxRows maxCols : Int) (s : Sheet)
    (hbox : BoxValid E maxRows maxCols) (hkeys : ∀ e ∈ s.data_, E.IsValid e.1 = true) :
    ∀ e ∈ s.data_, 0 ≤ e.1.row ∧ 0 ≤ e.1.col := by
  intro e he
  have := (hbox e.1).mp (hkeys e he)
  exact ⟨this.1, this.2.2.1⟩

/-- Every position of the printable rectangle of a non-empty sheet is valid. -/
theorem rect_valid (E : Env) (NONE : Position) (maxRows maxCols : Int) (s : Sheet)
    (hbox : BoxValid E maxRows maxCols) (hNONE : NONE.row < 0 ∧ NONE.col < 0)
    (hkeys : ∀ e ∈ s.data_, E.IsValid e.1 = true) (hne : s.data_ ≠ []) :
    ∀ i j, i ∈ forRange (s.GetCorners NONE).1.row (s.GetCorners NONE).2.row →
      j ∈ forRange (s.GetCorners NONE).1.col (s.GetCorners NONE).2.col →
      E.IsValid ⟨i, j⟩ = true := by
  intro i j hi hj
  obtain ⟨h0, ⟨⟨e, he, hr⟩, _⟩, ⟨⟨e2, he2, hc⟩, _⟩⟩ :=
    corners_max NONE s hNONE (box_nonneg E maxRows maxCols s hbox hkeys) hne
  have hb1 := (hbox e.1).mp (hkeys e he)
  have hb2 := (hbox e2.1).mp (hkeys e2 he2)
  rw [h0] at hi hj
  simp only [forRange, mem_countUp] at hi hj
  rw [hr] at hi
  rw [hc] at hj
  rw [Int.toNat_of_nonneg (by omega)] at hi hj
  apply (hbox ⟨i, j⟩).mpr
  simp only
  omega

theorem ranges_eq (NONE : Position) (s : Sheet) (hne : s.data_ ≠ [])
    (h0 : (s.GetCorners NONE).1 = ⟨0, 0⟩) :
    forRange (s.GetCorners NONE).1.row (s.GetCorners NONE).2.row
      = countUp 0 (s.GetPrintableSize NONE).rows.toNat ∧
    forRange (s.GetCorners NONE).1.col (s.GetCorners NONE).2.col
      = countUp 0 (s.GetPrintableSize NONE).cols.toNat := by
  have hemp : s.data_.isEmpty = false := by
    cases hd : s.data_ with
    | nil => exact absurd hd hne
    | cons _ _ => rfl
  simp only [Sheet.GetPrintableSize, hemp, Bool.false_eq_true, if_false, h0, forRange]
  constructor
  · congr 2; omega
  · congr 2; omega

theorem textOut_valid (E : Env) (s : Sheet) (p : Position) (hv : E.IsValid p = true) :
    textOut E s p = some (.ok (textAt s p), s) := by
  unfold textOut textAt
  simp only [Sheet.GetCell, hv, if_true]
  cases s.find p <;> rfl

/-- With `(R, C)` the printable size, `PrintTexts` returns and writes `R` lines in row
order, line `r` being the texts of positions `(r,0)..(r,C-1)` joined by single tabs
and followed by one newline, an absent position giving the empty string; on a sheet
with no cells `R = 0` and neither dump writes anything. -/
theorem printTexts_format (E : Env) (fmt : Int → String) (NONE : Position) (s : Sheet)
    (maxRows maxCols : Int) (fuel : Nat)
    (hbox : BoxValid E maxRows maxCols) (hNONE : NONE.row < 0 ∧ NONE.col < 0)
    (hkeys : ∀ e ∈ s.data_, E.IsValid e.1 = true) :
    s.PrintTexts E NONE
      = some (.ok (),
          gridDump ((countUp 0 (s.GetPrintableSize NONE).rows.toNat).map (fun i =>
            (countUp 0 (s.GetPrintableSize NONE).cols.toNat).map (fun j => textAt s ⟨i, j⟩))),
          s) ∧
    (s.data_ = [] → s.GetPrintableSize NONE = ⟨0, 0⟩ ∧
      s.PrintTexts E NONE = some (.ok (), "", s) ∧
      s.PrintValues E fmt NONE fuel = some (.ok (), "", s)) := by
  by_cases hne : s.data_ = []
  · have hemp : s.data_.isEmpty = true := by rw [hne]; rfl
    have hsz : s.GetPrintableSize NONE = ⟨0, 0⟩ := by simp [Sheet.GetPrintableSize, hemp]
    refine ⟨?_, ?_⟩
    · simp [Sheet.PrintTexts, hemp, hsz, countUp, gridDump]
    · intro _
      exact ⟨hsz, by simp [Sheet.PrintTexts, hemp], by simp [Sheet.PrintValues, hemp]⟩
  · have hemp : s.data_.isEmpty = false := by
      cases hd : s.data_ with
      | nil => exact absurd hd hne
      | cons _ _ => rfl
    obtain ⟨h0, ⟨⟨e, he, hr⟩, _⟩, ⟨⟨e2, he2, hc⟩, _⟩⟩ :=
      corners_max NONE s hNONE (box_nonneg E maxRows maxCols s hbox hkeys) hne
    have hnn := box_nonneg E maxRows maxCols s hbox hkeys
    have hcols : (s.GetCorners NONE).1.col ≤ (s.GetCorners NONE).2.col + 1 := by
      rw [h0, hc]; have := (hnn e2 he2).2; simp only; omega
    have hrect := rect_valid E NONE maxRows maxCols s hbox hNONE hkeys hne
    obtain ⟨hrows, hcolsEq⟩ := ranges_eq NONE s hne h0
    refine ⟨?_, fun h => absurd h hne⟩
    obtain ⟨grid, st1, hrun, hst1, hall⟩ := printRows_spec (textOut E) (fun a => a = s)
      (fun p str => str = textAt s p) (s.GetCorners NONE).1 (s.GetCorners NONE).2 hcols
      (forRange (s.GetCorners NONE).1.row (s.GetCorners NONE).2.row)
      (fun a i j ha hi hj => ⟨textAt s ⟨i, j⟩, s,
        by rw [ha]; exact textOut_valid E s _ (hrect i j hi hj), rfl, rfl⟩)
      s "" rfl
    have hg := forall2_map_rows _ (fun i j => textAt s ⟨i, j⟩) _ grid hall
    simp only [Sheet.PrintTexts, hemp, Bool.false_eq_true, if_false]
    rw [hrun, hst1, hg, hrows, hcolsEq, String.empty_append]

theorem boxValid_demoEnv : BoxValid demoEnv 16384 16384 := by
  intro p
  simp [demoEnv]

theorem reachable_sheetDangling : Reachable demoEnv sheetDangling :=
  Reachable.clearCell B1 reachable_sheetA1B1

/-- C12 (evaluated on the code): the specification's example sheet (A1 = "1",
B1 = "2", A2 = "3") dumps its values and its texts as "1", tab, "2", newline, "3",
tab, newline. On the sheet reached by `SetCell(A1, "=B1")` and `ClearCell(B1)`, of
printable size (1,1), `PrintTexts` writes its one line, the first `PrintValues`
writes one line and memoises A1, and the second `PrintValues` writes nothing: the
read of A1 dereferences the null pointer `GetCell(B1)` returns. -/
theorem value_dump_dereferences_null :
    (sheetGrid.PrintValues demoEnv (fun d => toString d) noPosition 4).map (fun r => r.2.1)
      = some "1\t2\n3\t\n" ∧
    (sheetGrid.PrintTexts demoEnv noPosition).map (fun r => r.2.1) = some "1\t2\n3\t\n" ∧
    Reachable demoEnv sheetDangling ∧
    sheetDangling.GetPrintableSize noPosition = ⟨1, 1⟩ ∧
    (sheetDangling.PrintTexts demoEnv noPosition).map (fun r => r.2.1) = some "=B1\n" ∧
    (sheetDangling.PrintValues demoEnv (fun d => toString d) noPosition 4).map
        (fun r => r.2.1) = some "0\n" ∧
    (match sheetDangling.PrintValues demoEnv (fun d => toString d) noPosition 4 with
      | some (.ok (), _, s1) =>
        (s1.PrintValues demoEnv (fun d => toString d) noPosition 4).map (fun r => (r.1, r.2.1))
      | _ => none) = some (.error Failure.NullDereference, "") :=
  ⟨by decide, by decide, reachable_sheetDangling, by decide, by decide, by decide, rfl⟩

end Spreadsheet
